import Mathlib

/-!
CHIP-8 interpreter core (chip8-e.c): shallow embedding.

The interpreter keeps its machine state in file-scope variables
(chip8-e.c lines 15-16).  They are gathered here in one record that
is passed through every operation.  C arrays are total functions on
indices together with an explicit bounds check at every access whose
index is not bounded by construction; an access outside the array is
undefined behaviour in C and is reported as `Fault.outOfBounds`.
Machine integers are natural numbers, truncated with an explicit
modulus at every store into an `unsigned char` or `unsigned short`.
What the program reads from its environment is a parameter: the clock
value of RND and the content of the ROM file.
-/

namespace Chip8

/-! ## Constants and decoder macros (chip8-e.h) -/

def V_SIZE : Nat := 16
def KEY_SIZE : Nat := 16
def STACK_SIZE : Nat := 16 - 1
def MEMORY_SIZE : Nat := 4096
def GFX_SIZE : Nat := 64 * 32
def F : Nat := 0xF

/-- Macro `x(opcode)`: `((opcode & 0xF00) >> 8)`. -/
def x (opcode : Nat) : Nat := (opcode &&& 0xF00) >>> 8
/-- Macro `y(opcode)`: `((opcode & 0xF0) >> 4)`. -/
def y (opcode : Nat) : Nat := (opcode &&& 0xF0) >>> 4
/-- Macro `n(opcode)`: `(opcode & 0xF)`. -/
def n (opcode : Nat) : Nat := opcode &&& 0xF
/-- Macro `kk(opcode)`: `(opcode & 0xFF)`. -/
def kk (opcode : Nat) : Nat := opcode &&& 0xFF

/-! ## Machine integers -/

/-- Conversion to `unsigned char`. -/
def u8 (v : Nat) : Nat := v % 256
/-- Conversion to `unsigned short`. -/
def u16 (v : Nat) : Nat := v % 65536
/-- Conversion to `unsigned int`. -/
def u32 (v : Nat) : Nat := v % 4294967296
/-- Conversion of a possibly negative `int` to `unsigned char`. -/
def u8i (z : Int) : Nat := (z % 256).toNat

/-! ## Machine state (chip8-e.c lines 15-16) -/

structure Machine where
  opcode : Nat
  pc : Nat
  idx : Nat
  nnn : Nat
  stack : Nat → Nat
  dt : Nat
  st : Nat
  sp : Nat
  draw : Nat
  V : Nat → Nat
  memory : Nat → Nat
  keys : Nat → Nat
  gfx : Nat → Nat

/-- Ways in which a run stops without a successor state. -/
inductive Fault where
  /-- The call `abort()` of an "unimplemented" branch. -/
  | abort
  /-- The call `ferr(...)` of the ROM size check, which exits. -/
  | romSize
  /-- An array access outside the array: undefined behaviour in C. -/
  | outOfBounds
  deriving DecidableEq, Repr

/-- Array store `a[i] = v`. -/
def store (a : Nat → Nat) (i v : Nat) : Nat → Nat :=
  fun j => if j = i then v else a j

/-- Store `V[i] = v` of a value `v` already converted to `unsigned char`. -/
def setV (s : Machine) (i v : Nat) : Machine :=
  { s with V := store s.V i v }

/-! ## Start-up (chip8-e.c lines 15-36, 130-173) -/

/-- Static storage at program start: every file-scope variable is zero. -/
def boot : Machine :=
  { opcode := 0, pc := 0, idx := 0, nnn := 0, stack := fun _ => 0,
    dt := 0, st := 0, sp := 0, draw := 0, V := fun _ => 0,
    memory := fun _ => 0, keys := fun _ => 0, gfx := fun _ => 0 }

/-- Table `chip8_fonts` (lines 19-36). -/
def chip8_fonts : List Nat :=
  [0xF0, 0x90, 0x90, 0x90, 0xF0,
   0x20, 0x60, 0x20, 0x20, 0x70,
   0xF0, 0x10, 0xF0, 0x80, 0xF0,
   0xF0, 0x10, 0xF0, 0x10, 0xF0,
   0x90, 0x90, 0xF0, 0x10, 0x10,
   0xF0, 0x80, 0xF0, 0x10, 0xF0,
   0xF0, 0x80, 0xF0, 0x90, 0xF0,
   0xF0, 0x10, 0x20, 0x40, 0x40,
   0xF0, 0x90, 0xF0, 0x90, 0xF0,
   0xF0, 0x90, 0xF0, 0x10, 0xF0,
   0xF0, 0x90, 0xF0, 0x90, 0x90,
   0xE0, 0x90, 0xE0, 0x90, 0xE0,
   0xF0, 0x80, 0x80, 0x80, 0xF0,
   0xE0, 0x90, 0x90, 0x90, 0xE0,
   0xF0, 0x80, 0xF0, 0x80, 0xF0,
   0xF0, 0x80, 0xF0, 0x80, 0x80]

/-- Function `init_regs` (lines 130-148).  The variables `st`, `draw` and
`keys` are not assigned.  `memset(stack, 0, STACK_SIZE)` clears 15 bytes of
an array of 2-byte cells: cells 0..6 and, on a little-endian target, the low
byte of cell 7. -/
def init_regs (s : Machine) : Machine :=
  { s with
    pc := 0x200
    opcode := 0
    idx := 0
    sp := 0
    nnn := 0
    dt := 0
    stack := fun i => if i < 7 then 0 else if i = 7 then s.stack 7 / 256 * 256 else s.stack i
    memory := fun i =>
      if i < 80 then chip8_fonts.getD i 0 else if i < MEMORY_SIZE then 0 else s.memory i
    gfx := fun i => if i < GFX_SIZE then 0 else s.gfx i
    V := fun i => if i < V_SIZE then 0 else s.V i }

/-- Function `load_rom` (lines 150-173) on the content `rom` of an opened
file.  `fseek(fp, 1L, SEEK_END)` positions one byte past the end, so `ftell`
returns the file length plus one; `fread` asks for `sz` bytes and receives
the bytes the file has. -/
def load_rom (rom : List Nat) (s : Machine) : Except Fault Machine :=
  let sz : Int := (rom.length : Int) + 1
  if sz ≤ 0 ∨ sz > 4096 then .error .romSize
  else
    let cnt := min sz.toNat rom.length
    if 512 + cnt ≤ MEMORY_SIZE then
      .ok { s with memory := fun a =>
              if 512 ≤ a ∧ a < 512 + cnt then rom.getD (a - 512) 0 else s.memory a }
    else .error .outOfBounds

/-! ## Pseudo-random generator (lines 82-94) -/

/-- Function `xorshift32` on an `unsigned int`. -/
def xorshift32 (seed : Nat) : Nat :=
  let x0 := seed
  let x1 := x0 ^^^ u32 (x0 <<< 13)
  let x2 := x1 ^^^ (x1 >>> 17)
  let x3 := x2 ^^^ u32 (x2 <<< 5)
  x3

/-! ## One cycle: `fde_cycle` (lines 175-485) -/

/-- The instruction word at `pc` (line 182):
`(unsigned short)((memory[pc] << 8) | memory[pc + 1])`. -/
def word (s : Machine) : Nat :=
  u16 ((s.memory s.pc <<< 8) ||| s.memory (s.pc + 1))

/-- Fetch (lines 182-184): read the opcode, set `nnn`, advance `pc`. -/
def fetch (s : Machine) : Except Fault Machine :=
  if s.pc + 1 < MEMORY_SIZE then
    let op := word s
    .ok { s with opcode := op, nnn := op &&& 0xFFF, pc := u16 (s.pc + 2) }
  else .error .outOfBounds

/-- Statement `pc += 2`. -/
def skip (s : Machine) : Machine := { s with pc := u16 (s.pc + 2) }

/-- Case `0x0000` (lines 188-197): CLS, RET, and nothing for any other word. -/
def sys (s : Machine) : Except Fault Machine :=
  if s.opcode = 0xE0 then
    .ok { s with gfx := fun i => if i < 2048 then 0 else s.gfx i, draw := 1 }
  else if s.opcode = 0xEE then
    let s1 := { s with sp := u8i ((s.sp : Int) - 1) }
    if s1.sp < STACK_SIZE + 1 then .ok { s1 with pc := s1.stack s1.sp }
    else .error .outOfBounds
  else .ok s

/-- Case `0x2000` (lines 206-211): CALL. -/
def call (s : Machine) : Except Fault Machine :=
  if s.sp < STACK_SIZE + 1 then
    let s1 := { s with stack := store s.stack s.sp s.pc }
    let s2 := { s1 with sp := u8 (s1.sp + 1) }
    .ok { s2 with pc := s2.nnn }
  else .error .outOfBounds

/-- ADD Vx,Vy (lines 275-283). -/
def addVxVy (s : Machine) : Machine :=
  let s1 := if s.V (x s.opcode) + s.V (y s.opcode) > 255 then setV s F 1 else setV s F 0
  setV s1 (x s.opcode) (u8 (s1.V (x s.opcode) + s1.V (y s.opcode)))

/-- SUB Vx,Vy (lines 286-294). -/
def subVxVy (s : Machine) : Machine :=
  let s1 := if s.V (x s.opcode) > s.V (y s.opcode) then setV s F 1 else setV s F 0
  setV s1 (x s.opcode) (u8i ((s1.V (x s.opcode) : Int) - (s1.V (y s.opcode) : Int)))

/-- SHR Vx (lines 297-301). -/
def shrVx (s : Machine) : Machine :=
  let s1 := setV s F (u8 (s.V (x s.opcode) &&& 1))
  setV s1 (x s.opcode) (u8 (s1.V (x s.opcode) >>> 1))

/-- SUBN Vx,Vy (lines 304-312). -/
def subnVxVy (s : Machine) : Machine :=
  let s1 := if s.V (y s.opcode) > s.V (x s.opcode) then setV s F 1 else setV s F 0
  setV s1 (x s.opcode) (u8i ((s1.V (y s.opcode) : Int) - (s1.V (x s.opcode) : Int)))

/-- SHL Vx (lines 315-319). -/
def shlVx (s : Machine) : Machine :=
  let s1 := setV s F (u8 (s.V (x s.opcode) >>> 7))
  setV s1 (x s.opcode) (u8 (s1.V (x s.opcode) <<< 1))

/-- Case `0x8000` (lines 247-326): register-to-register operations. -/
def alu (s : Machine) : Except Fault Machine :=
  let op := s.opcode
  let sub := op &&& 0xF
  if sub = 0x0 then .ok (setV s (x op) (s.V (y op)))
  else if sub = 0x1 then .ok (setV s (x op) (u8 (s.V (x op) ||| s.V (y op))))
  else if sub = 0x2 then .ok (setV s (x op) (u8 (s.V (x op) &&& s.V (y op))))
  else if sub = 0x3 then .ok (setV s (x op) (u8 (s.V (x op) ^^^ s.V (y op))))
  else if sub = 0x4 then .ok (addVxVy s)
  else if sub = 0x5 then .ok (subVxVy s)
  else if sub = 0x6 then .ok (shrVx s)
  else if sub = 0x7 then .ok (subnVxVy s)
  else if sub = 0xE then .ok (shlVx s)
  else .error .abort

/-- Body of the inner loop of DRW (lines 364-369) for column `xline` of the
sprite row `pix` at row `yline`. -/
def drwPixel (xd yd yline pix : Nat) (s : Machine) (xline : Nat) : Except Fault Machine :=
  if pix &&& (0x80 >>> xline) ≠ 0 then
    let k := xd + xline + (yd + yline) * 64
    if k < GFX_SIZE then
      let s1 := if s.gfx k = 1 then setV s F 1 else s
      .ok { s1 with gfx := store s1.gfx k (u8 (s1.gfx k ^^^ 1)) }
    else .error .outOfBounds
  else .ok s

/-- Body of the outer loop of DRW (lines 362-370) for sprite row `yline`. -/
def drwRow (xd yd : Nat) (s : Machine) (yline : Nat) : Except Fault Machine :=
  if s.idx + yline < MEMORY_SIZE then
    let pix := s.memory (s.idx + yline)
    (List.range 8).foldlM (drwPixel xd yd yline pix) s
  else .error .outOfBounds

/-- Case `0xD000` (lines 354-374): DRW. -/
def drw (s : Machine) : Except Fault Machine :=
  let xd := s.V (x s.opcode)
  let yd := s.V (y s.opcode)
  let hd := n s.opcode
  let s1 := setV s F 0
  match (List.range hd).foldlM (drwRow xd yd) s1 with
  | .ok s2 => .ok { s2 with draw := 1 }
  | .error e => .error e

/-- Case `0xE000` (lines 377-391): SKP, SKNP, and nothing for any other word. -/
def key (s : Machine) : Except Fault Machine :=
  if kk s.opcode = 0x9E then
    if s.V (x s.opcode) < KEY_SIZE then
      .ok (if s.keys (s.V (x s.opcode)) ≠ 0 then skip s else s)
    else .error .outOfBounds
  else if kk s.opcode = 0xA1 then
    if s.V (x s.opcode) < KEY_SIZE then
      .ok (if s.keys (s.V (x s.opcode)) = 0 then skip s else s)
    else .error .outOfBounds
  else .ok s

/-- Store `memory[a] = v` of a value `v` already converted to `unsigned char`. -/
def setMem (s : Machine) (a v : Nat) : Except Fault Machine :=
  if a < MEMORY_SIZE then .ok { s with memory := store s.memory a v }
  else .error .outOfBounds

/-- Case `0xF000` (lines 394-461): timers, keys, index register, memory. -/
def misc (s : Machine) : Except Fault Machine :=
  let op := s.opcode
  let sub := kk op
  if sub = 0x7 then .ok (setV s (x op) s.dt)
  else if sub = 0xA then
    .ok ((List.range 16).foldl (fun a i => if a.keys i ≠ 0 then setV a (x op) (u8 i) else a) s)
  else if sub = 0x15 then .ok { s with dt := s.V (x op) }
  else if sub = 0x18 then .ok { s with st := s.V (x op) }
  else if sub = 0x1E then .ok { s with idx := u16 (s.idx + s.V (x op)) }
  else if sub = 0x29 then .ok { s with idx := u16 (s.V (x op) * 5) }
  else if sub = 0x33 then do
    let s1 ← setMem s s.idx (u8 (s.V (x op) / 100))
    let s2 ← setMem s1 (s1.idx + 1) (u8 (s1.V (x op) / 10 % 10))
    setMem s2 (s2.idx + 2) (u8 (s2.V (x op) % 10))
  else if sub = 0x55 then
    (List.range (x op + 1)).foldlM (fun a i => setMem a (a.idx + i) (a.V i)) s
  else if sub = 0x65 then
    (List.range (x op + 1)).foldlM
      (fun a i => if a.idx + i < MEMORY_SIZE then .ok (setV a i (a.memory (a.idx + i)))
                  else .error .outOfBounds) s
  else .error .abort

/-- The `switch (opcode & 0xF000)` of lines 186-467; `t` is the value that
`time(NULL)` returns when RND reads the clock. -/
def exec (t : Nat) (s : Machine) : Except Fault Machine :=
  let op := s.opcode
  let fam := op &&& 0xF000
  if fam = 0x0000 then sys s
  else if fam = 0x1000 then .ok { s with pc := s.nnn }
  else if fam = 0x2000 then call s
  else if fam = 0x3000 then .ok (if s.V (x op) = kk op then skip s else s)
  else if fam = 0x4000 then .ok (if s.V (x op) ≠ kk op then skip s else s)
  else if fam = 0x5000 then .ok (if s.V (x op) = s.V (y op) then skip s else s)
  else if fam = 0x6000 then .ok (setV s (x op) (u8 (kk op)))
  else if fam = 0x7000 then .ok (setV s (x op) (u8 (s.V (x op) + kk op)))
  else if fam = 0x8000 then alu s
  else if fam = 0x9000 then .ok (if s.V (x op) ≠ s.V (y op) then skip s else s)
  else if fam = 0xA000 then .ok { s with idx := s.nnn }
  else if fam = 0xB000 then .ok { s with pc := u16 (s.nnn + s.V 0) }
  else if fam = 0xC000 then .ok (setV s (x op) (u8 ((xorshift32 (u32 t) % 256) &&& kk op)))
  else if fam = 0xD000 then drw s
  else if fam = 0xE000 then key s
  else if fam = 0xF000 then misc s
  else .error .abort

/-- Timer tick (lines 469-484).  The second component tells whether the
detached thread running `audio_play_beep` is started; creating the thread is
taken to succeed. -/
def tick (s : Machine) : Machine × Bool :=
  let s1 := if s.dt > 0 then { s with dt := u8i ((s.dt : Int) - 1) } else s
  if s1.st > 0 then
    let s2 := { s1 with st := u8i ((s1.st : Int) - 1) }
    (s2, decide (s2.st = 0))
  else (s1, false)

/-- Function `fde_cycle` (lines 175-485): fetch, execute, tick. -/
def fde_cycle (t : Nat) (s : Machine) : Except Fault (Machine × Bool) :=
  match fetch s with
  | .error e => .error e
  | .ok s1 =>
    match exec t s1 with
    | .error e => .error e
    | .ok s2 => .ok (tick s2)

/-! ## Observations of a cycle and sample states -/

/-- Register `V[i]` after one cycle, when the cycle yields a state. -/
def vAfter (t : Nat) (s : Machine) (i : Nat) : Option Nat :=
  match fde_cycle t s with
  | .ok r => some (r.1.V i)
  | .error _ => none

/-- Program counter after one cycle, when the cycle yields a state. -/
def pcAfter (t : Nat) (s : Machine) : Option Nat :=
  match fde_cycle t s with
  | .ok r => some r.1.pc
  | .error _ => none

/-- The fault of one cycle, when the cycle yields no state. -/
def faultOf (t : Nat) (s : Machine) : Option Fault :=
  match fde_cycle t s with
  | .ok _ => none
  | .error e => some e

/-- The state after start-up with the two-byte program `hi lo` at `0x200`. -/
def started (hi lo : Nat) : Machine :=
  match load_rom [hi, lo] (init_regs boot) with
  | .ok s => s
  | .error _ => init_regs boot

/-- ADD V0,VF at `0x200` with `V[0] = 1` and `V[0xF] = 7`. -/
def sampleAddFlagOperand : Machine := setV (setV (started 0x80 0xF4) 0 1) 0xF 7

/-- ADD V1,V2 at `0x200` with `V[1] = 200` and `V[2] = 100`. -/
def sampleAdd : Machine := setV (setV (started 0x81 0x24) 1 200) 2 100

/-- SUB V0,VF at `0x200` with `V[0] = 9` and `V[0xF] = 7`. -/
def sampleSubFlagOperand : Machine := setV (setV (started 0x80 0xF5) 0 9) 0xF 7

/-- SUB V1,V2 at `0x200` with `V[1] = 5` and `V[2] = 9`. -/
def sampleSub : Machine := setV (setV (started 0x81 0x25) 1 5) 2 9

/-- SHR VF at `0x200` with `V[0xF] = 3`. -/
def sampleShrFlag : Machine := setV (started 0x8F 0x06) 0xF 3

/-- SHR V1 at `0x200` with `V[1] = 0x95`. -/
def sampleShr : Machine := setV (started 0x81 0x26) 1 0x95

/-- SHL V1 at `0x200` with `V[1] = 0x95`. -/
def sampleShl : Machine := setV (started 0x81 0x2E) 1 0x95

/-- The fault of `load_rom`, when the ROM is not loaded. -/
def loadFault (rom : List Nat) (s : Machine) : Option Fault :=
  match load_rom rom s with
  | .ok _ => none
  | .error e => some e

/-- Memory byte `a` after `load_rom`, when the ROM is loaded. -/
def loadedByte (rom : List Nat) (s : Machine) (a : Nat) : Option Nat :=
  match load_rom rom s with
  | .ok s1 => some (s1.memory a)
  | .error _ => none

/-- CALL 300 at `0x200` with `sp = 2` and RET at `0x300`. -/
def sampleCallRet : Machine :=
  { started 0x23 0x00 with
    sp := 2
    memory := store (started 0x23 0x00).memory 0x301 0xEE }

/-- LD B,V1 at `0x200` with `V[1] = 234` and `I = 0x300`. -/
def sampleBcd : Machine := { setV (started 0xF1 0x33) 1 234 with idx := 0x300 }

/-- Framebuffer index of column `col` of sprite row `row` for a sprite drawn
at `(xd, yd)`: `xd + col + (yd + row) * 64` (lines 365, 368). -/
def pixelIndex (xd yd row col : Nat) : Nat := xd + col + (yd + row) * 64

/-- Reference definition of DRW, after the claim: bit `7 - col` of the sprite
byte `memory[I + row]`. -/
def spriteBit (s : Machine) (row col : Nat) : Nat :=
  (s.memory (s.idx + row) >>> (7 - col)) % 2

/-- Framebuffer cells `64 * row + 0 .. 64 * row + 7` after one cycle. -/
def rowAfter (t : Nat) (s : Machine) (row : Nat) : Option (List Nat) :=
  match fde_cycle t s with
  | .ok r => some ((List.range 8).map (fun col => r.1.gfx (64 * row + col)))
  | .error _ => none

/-- The `draw` flag after one cycle. -/
def drawAfter (t : Nat) (s : Machine) : Option Nat :=
  match fde_cycle t s with
  | .ok r => some r.1.draw
  | .error _ => none

/-! ## Loop invariants of DRW -/

/-- Invariant of the inner loop of DRW before column `c` of sprite row `row`,
relative to the state `b` in which the row started. -/
def RowInv (xd yd row : Nat) (b : Machine) (c : Nat) (a : Machine) : Prop :=
  a.memory = b.memory ∧ a.idx = b.idx ∧
  (∀ col, col < c → a.gfx (pixelIndex xd yd row col) =
    b.gfx (pixelIndex xd yd row col) ^^^ spriteBit b row col) ∧
  (∀ j, (∀ col, col < c → j ≠ pixelIndex xd yd row col) → a.gfx j = b.gfx j) ∧
  ((∃ col, col < c ∧ spriteBit b row col = 1 ∧ b.gfx (pixelIndex xd yd row col) = 1) →
    a.V F = 1) ∧
  ((¬ ∃ col, col < c ∧ spriteBit b row col = 1 ∧ b.gfx (pixelIndex xd yd row col) = 1) →
    a.V F = b.V F)

/-- Invariant of the outer loop of DRW before sprite row `r`, relative to the
state `s` in which the instruction started. -/
def DrwInv (xd yd : Nat) (s : Machine) (r : Nat) (a : Machine) : Prop :=
  a.memory = s.memory ∧ a.idx = s.idx ∧
  (∀ row col, row < r → col < 8 → a.gfx (pixelIndex xd yd row col) =
    s.gfx (pixelIndex xd yd row col) ^^^ spriteBit s row col) ∧
  (∀ j, (∀ row col, row < r → col < 8 → j ≠ pixelIndex xd yd row col) → a.gfx j = s.gfx j) ∧
  ((∃ row col, row < r ∧ col < 8 ∧ spriteBit s row col = 1 ∧
      s.gfx (pixelIndex xd yd row col) = 1) → a.V F = 1) ∧
  ((¬ ∃ row col, row < r ∧ col < 8 ∧ spriteBit s row col = 1 ∧
      s.gfx (pixelIndex xd yd row col) = 1) → a.V F = 0)

/-- DRW V0,V0,5 at `0x200` with `V[0] = 0` and `I = 0`, after start-up. -/
def sampleDrw : Machine := started 0xD0 0x05

/-- Two DRW V0,V0,5 at `0x200` and `0x202`, with `V[0] = 0` and `I = 0`. -/
def sampleDrwTwice : Machine :=
  match load_rom [0xD0, 0x05, 0xD0, 0x05] (init_regs boot) with
  | .ok s => s
  | .error _ => init_regs boot

/-- CLS at `0x200` after start-up, with one framebuffer cell set, `dt = 3` and `st = 1`. -/
def sampleCls : Machine :=
  { started 0x00 0xE0 with gfx := store (started 0x00 0xE0).gfx 5 1, dt := 3, st := 1 }

/-- RND V1,0x0F at `0x200` after start-up. -/
def sampleRnd : Machine := started 0xC1 0x0F

/-- Reference definition of the generator, after the claim: the three steps
`x ^= x << 13`, `x ^= x >> 17`, `x ^= x << 5` on a 32-bit value, with a left
shift by `k` written as multiplication by `2^k` modulo `2^32` and a right
shift by `k` as division by `2^k`. -/
def xorshiftRef (t : Nat) : Nat :=
  [fun v => v ^^^ (v * 2 ^ 13 % 2 ^ 32),
   fun v => v ^^^ (v / 2 ^ 17),
   fun v => v ^^^ (v * 2 ^ 5 % 2 ^ 32)].foldl (fun v f => f v) t

/-- RND V2,0x0F at `0x200` after start-up. -/
def sampleRnd2 : Machine := started 0xC2 0x0F

/-- The word `0x6A05` (LD VA,05) at `0x200` after start-up. -/
def sampleWord : Machine := started 0x6A 0x05

/-- The five rows of glyph `d` in `chip8_fonts`. -/
def glyph (d : Nat) : List Nat := (chip8_fonts.drop (5 * d)).take 5

/-- LD F,V3 at `0x200` after start-up, with `V[3] = 0xA`. -/
def sampleGlyph : Machine := setV (started 0xF3 0x29) 3 0xA

/-- The state after one cycle, or the state itself when the cycle yields none. -/
def stateAfter (t : Nat) (s : Machine) : Machine :=
  match fde_cycle t s with
  | .ok r => r.1
  | .error _ => s

/-- LD [I],V3 at `0x200` and LD V3,[I] at `0x202`, with `V[0..3] = 11, 22, 33, 44`,
`V[4] = 55` and `I = 0x300`. -/
def sampleStore : Machine :=
  match load_rom [0xF3, 0x55, 0xF3, 0x65] (init_regs boot) with
  | .ok s => { s with idx := 0x300
                      V := fun i => if i < 5 then 11 * (i + 1) else 0 }
  | .error _ => init_regs boot

/-- The state after the store of `sampleStore`, with all registers overwritten by 9. -/
def sampleLoad : Machine := { stateAfter 0 sampleStore with V := fun _ => 9 }

/-- LD V4,K at `0x200` after start-up, with keys 2 and 7 pressed and `V[4] = 0xC`. -/
def sampleKeys : Machine :=
  { setV (started 0xF4 0x0A) 4 0xC with keys := fun i => if i = 2 ∨ i = 7 then 1 else 0 }

/-- LD V4,K at `0x200` after start-up, with no key pressed and `V[4] = 0xC`. -/
def sampleNoKey : Machine := setV (started 0xF4 0x0A) 4 0xC

/-- The result of one cycle, or the state itself without a beep when the
cycle yields none. -/
def resultOf (t : Nat) (s : Machine) : Machine × Bool :=
  match fde_cycle t s with
  | .ok r => r
  | .error _ => (s, false)

/-- LD ST,V1 at `0x200` after start-up, with `V[1] = 1` and `dt = 0`. -/
def sampleBeep : Machine := setV (started 0xF1 0x18) 1 1

/-- LD ST,V1 at `0x200` after start-up, with `V[1] = 2` and `dt = 7`. -/
def sampleNoBeep : Machine := { setV (started 0xF1 0x18) 1 2 with dt := 7 }

/-- A state produced by start-up (lines 633-634): `init_regs` in some
prior state, then `load_rom` of some ROM. -/
def Started (s : Machine) : Prop :=
  ∃ s0 rom, load_rom rom (init_regs s0) = .ok s

/-- The states of a run of `main` (lines 633-637, 646-656): start-up, then
cycles of `fde_cycle`, with key states rewritten by the event loop between
cycles. -/
inductive Reachable : Machine → Prop where
  | start (s : Machine) : Started s → Reachable s
  | cycle (t : Nat) (s : Machine) (r : Machine × Bool) :
      Reachable s → fde_cycle t s = Except.ok r → Reachable r.1
  | input (s : Machine) (k : Nat → Nat) :
      Reachable s → Reachable { s with keys := k }

/-- LD V0,0x2A at `0x200` after start-up, with one framebuffer cell set and
`draw = 1` left by an earlier draw. -/
def sampleDrawn : Machine :=
  { started 0x60 0x2A with gfx := store (started 0x60 0x2A).gfx 5 1, draw := 1 }

/-- The two assignments of the decode (lines 182-183): `opcode` and `nnn`. -/
def decode (s : Machine) : Machine :=
  { s with opcode := word s, nnn := word s &&& 0xFFF }

/-! ## Decoder facts -/

theorem n_eq_mod (w : Nat) : n w = w % 16 := by
  unfold n
  exact Nat.and_pow_two_sub_one_eq_mod w 4

theorem kk_eq_mod (w : Nat) : kk w = w % 256 := by
  unfold kk
  exact Nat.and_pow_two_sub_one_eq_mod w 8

theorem and_FFF_eq_mod (w : Nat) : w &&& 0xFFF = w % 4096 :=
  Nat.and_pow_two_sub_one_eq_mod w 12

/-- Masking with `(2^b - 1) << k` and shifting right by `k` selects `b` bits. -/
theorem and_mask_shiftRight (w b k : Nat) :
    (w &&& ((2 ^ b - 1) <<< k)) >>> k = w / 2 ^ k % 2 ^ b := by
  apply Nat.eq_of_testBit_eq
  intro i
  rw [← Nat.shiftRight_eq_div_pow, Nat.testBit_shiftRight, Nat.testBit_and,
    Nat.testBit_shiftLeft, Nat.testBit_two_pow_sub_one, Nat.testBit_mod_two_pow,
    Nat.testBit_shiftRight]
  simp [Bool.and_comm]

/-- Masking with `(2^b - 1) << k` keeps the `b` bits from position `k`. -/
theorem and_mask_eq (w b k : Nat) :
    w &&& ((2 ^ b - 1) <<< k) = w / 2 ^ k % 2 ^ b * 2 ^ k := by
  apply Nat.eq_of_testBit_eq
  intro i
  rw [← Nat.shiftLeft_eq, ← Nat.shiftRight_eq_div_pow, Nat.testBit_and,
    Nat.testBit_shiftLeft, Nat.testBit_shiftLeft, Nat.testBit_two_pow_sub_one,
    Nat.testBit_mod_two_pow, Nat.testBit_shiftRight]
  by_cases h : k ≤ i
  · have : k + (i - k) = i := by omega
    simp [h, this, Bool.and_comm]
  · simp [h]

theorem x_eq_div (w : Nat) : x w = w / 256 % 16 :=
  and_mask_shiftRight w 4 8

theorem y_eq_div (w : Nat) : y w = w / 16 % 16 :=
  and_mask_shiftRight w 4 4

theorem and_F000_eq (w : Nat) : w &&& 0xF000 = w / 4096 % 16 * 4096 :=
  and_mask_eq w 4 12

theorem decode_fields (f rx ry rn : Nat) (hf : f < 16) (hx : rx < 16) (hy : ry < 16)
    (hn : rn < 16) :
    (f * 4096 + rx * 256 + ry * 16 + rn) &&& 0xF000 = f * 4096 ∧
    x (f * 4096 + rx * 256 + ry * 16 + rn) = rx ∧
    y (f * 4096 + rx * 256 + ry * 16 + rn) = ry ∧
    n (f * 4096 + rx * 256 + ry * 16 + rn) = rn ∧
    kk (f * 4096 + rx * 256 + ry * 16 + rn) = ry * 16 + rn ∧
    (f * 4096 + rx * 256 + ry * 16 + rn) &&& 0xFFF = rx * 256 + ry * 16 + rn := by
  rw [and_F000_eq, x_eq_div, y_eq_div, n_eq_mod, kk_eq_mod, and_FFF_eq_mod]
  omega

/-! ## Frame of the timer tick -/

@[simp] theorem tick_V (s : Machine) : (tick s).1.V = s.V := by
  unfold tick; dsimp only; split_ifs <;> rfl

@[simp] theorem tick_gfx (s : Machine) : (tick s).1.gfx = s.gfx := by
  unfold tick; dsimp only; split_ifs <;> rfl

@[simp] theorem tick_memory (s : Machine) : (tick s).1.memory = s.memory := by
  unfold tick; dsimp only; split_ifs <;> rfl

@[simp] theorem tick_stack (s : Machine) : (tick s).1.stack = s.stack := by
  unfold tick; dsimp only; split_ifs <;> rfl

@[simp] theorem tick_keys (s : Machine) : (tick s).1.keys = s.keys := by
  unfold tick; dsimp only; split_ifs <;> rfl

@[simp] theorem tick_pc (s : Machine) : (tick s).1.pc = s.pc := by
  unfold tick; dsimp only; split_ifs <;> rfl

@[simp] theorem tick_sp (s : Machine) : (tick s).1.sp = s.sp := by
  unfold tick; dsimp only; split_ifs <;> rfl

@[simp] theorem tick_idx (s : Machine) : (tick s).1.idx = s.idx := by
  unfold tick; dsimp only; split_ifs <;> rfl

@[simp] theorem tick_draw (s : Machine) : (tick s).1.draw = s.draw := by
  unfold tick; dsimp only; split_ifs <;> rfl

@[simp] theorem tick_opcode (s : Machine) : (tick s).1.opcode = s.opcode := by
  unfold tick; dsimp only; split_ifs <;> rfl

@[simp] theorem tick_nnn (s : Machine) : (tick s).1.nnn = s.nnn := by
  unfold tick; dsimp only; split_ifs <;> rfl

/-- The state that `fetch` hands to the dispatcher. -/
theorem fde_cycle_of_word (t : Nat) (s : Machine) (w : Nat)
    (hpc : s.pc + 1 < MEMORY_SIZE) (hw : word s = w) :
    fde_cycle t s =
      match exec t { s with opcode := w, nnn := w &&& 0xFFF, pc := u16 (s.pc + 2) } with
      | .error e => .error e
      | .ok s2 => .ok (tick s2) := by
  simp [fde_cycle, fetch, hpc, hw]

/-! ## C1: ADD Vx,Vy -/

theorem exec_alu (t : Nat) (s : Machine) (h : s.opcode &&& 0xF000 = 0x8000) :
    exec t s = alu s := by
  simp [exec, h]

theorem alu_add (s : Machine) (h : n s.opcode = 4) : alu s = .ok (addVxVy s) := by
  unfold n at h
  simp [alu, h]

/-- C1, as stated, fails when the flag register is an operand: with
`V[0] = 1` and `V[0xF] = 7`, ADD V0,VF (opcode 80F4) leaves `V[0] = 1`,
not `(1 + 7) mod 256 = 8`, because `V[0xF]` is overwritten by the carry
before it is added. -/
theorem add_vx_vy_flag_operand :
    word sampleAddFlagOperand = 0x8004 + 0 * 256 + 0xF * 16 ∧
    sampleAddFlagOperand.V 0 = 1 ∧ sampleAddFlagOperand.V 0xF = 7 ∧
    vAfter 0 sampleAddFlagOperand 0 = some 1 ∧
    vAfter 0 sampleAddFlagOperand 0 ≠ some ((1 + 7) % 256) := by
  decide

/-- C1 (amended): for every state and every `x` in 0..14, `y` in 0..15, a
cycle executing ADD Vx,Vy (opcode 8xy4) yields a state whose `V[0xF]` is 1 if
`V[x] + V[y] > 255` and 0 otherwise, and, when `y` is not `0xF`, whose `V[x]`
is `(V[x] + V[y]) mod 256`. -/
theorem add_vx_vy (t : Nat) (s : Machine) (rx ry : Nat) (hx : rx < 15) (hy : ry < 16)
    (hpc : s.pc + 1 < MEMORY_SIZE) (hw : word s = 0x8004 + rx * 256 + ry * 16) :
    ∃ r, fde_cycle t s = .ok r ∧
      r.1.V F = (if s.V rx + s.V ry > 255 then 1 else 0) ∧
      (ry ≠ F → r.1.V rx = (s.V rx + s.V ry) % 256) := by
  obtain ⟨h1, h2, h3, h4, -, -⟩ := decode_fields 8 rx ry 4 (by omega) (by omega) hy (by omega)
  have hw2 : word s = 8 * 4096 + rx * 256 + ry * 16 + 4 := by omega
  rw [fde_cycle_of_word t s _ hpc hw2]
  generalize 8 * 4096 + rx * 256 + ry * 16 + 4 = w at h1 h2 h3 h4
  rw [exec_alu _ _ h1, alu_add _ h4]
  have hxF : rx ≠ 15 := by omega
  refine ⟨_, rfl, ?_, ?_⟩
  · simp only [addVxVy, h2, h3, tick_V]
    split_ifs <;> simp [setV, store, F, Ne.symm hxF]
  · intro hyF
    have hyF2 : ry ≠ 15 := hyF
    simp only [addVxVy, h2, h3, tick_V]
    split_ifs <;> simp [setV, store, F, u8, hxF, hyF2]

theorem add_vx_vy_witness :
    ∃ r, fde_cycle 0 sampleAdd = .ok r ∧
      r.1.V F = (if sampleAdd.V 1 + sampleAdd.V 2 > 255 then 1 else 0) ∧
      (2 ≠ F → r.1.V 1 = (sampleAdd.V 1 + sampleAdd.V 2) % 256) :=
  add_vx_vy 0 sampleAdd 1 2 (by decide) (by decide) (by decide) (by decide)

/-! ## C2: SUB Vx,Vy -/

theorem alu_sub (s : Machine) (h : n s.opcode = 5) : alu s = .ok (subVxVy s) := by
  unfold n at h
  simp [alu, h]

theorem u8i_cast (z : Int) : ((u8i z : Nat) : Int) = z % 256 := by
  unfold u8i
  exact Int.toNat_of_nonneg (Int.emod_nonneg z (by decide))

/-- C2, as stated, fails when the flag register is an operand: with
`V[0] = 9` and `V[0xF] = 7`, SUB V0,VF (opcode 80F5) leaves `V[0] = 8`, not
`(9 - 7) mod 256 = 2`, because `V[0xF]` is overwritten by the flag before it
is subtracted. -/
theorem sub_vx_vy_flag_operand :
    word sampleSubFlagOperand = 0x8005 + 0 * 256 + 0xF * 16 ∧
    sampleSubFlagOperand.V 0 = 9 ∧ sampleSubFlagOperand.V 0xF = 7 ∧
    vAfter 0 sampleSubFlagOperand 0 = some 8 ∧
    vAfter 0 sampleSubFlagOperand 0 ≠ some ((9 - 7) % 256) := by
  decide

/-- C2 (amended): for every state and every `x` in 0..14, `y` in 0..15, a
cycle executing SUB Vx,Vy (opcode 8xy5) yields a state whose `V[0xF]` is 1 if
`V[x] > V[y]` held before the instruction and 0 otherwise, and, when `y` is
not `0xF`, whose `V[x]` is `(V[x] - V[y]) mod 256`. -/
theorem sub_vx_vy (t : Nat) (s : Machine) (rx ry : Nat) (hx : rx < 15) (hy : ry < 16)
    (hpc : s.pc + 1 < MEMORY_SIZE) (hw : word s = 0x8005 + rx * 256 + ry * 16) :
    ∃ r, fde_cycle t s = .ok r ∧
      r.1.V F = (if s.V rx > s.V ry then 1 else 0) ∧
      (ry ≠ F → (r.1.V rx : Int) = ((s.V rx : Int) - (s.V ry : Int)) % 256) := by
  obtain ⟨h1, h2, h3, h4, -, -⟩ := decode_fields 8 rx ry 5 (by omega) (by omega) hy (by omega)
  have hw2 : word s = 8 * 4096 + rx * 256 + ry * 16 + 5 := by omega
  rw [fde_cycle_of_word t s _ hpc hw2]
  generalize 8 * 4096 + rx * 256 + ry * 16 + 5 = w at h1 h2 h3 h4
  rw [exec_alu _ _ h1, alu_sub _ h4]
  have hxF : rx ≠ 15 := by omega
  refine ⟨_, rfl, ?_, ?_⟩
  · simp only [subVxVy, h2, h3, tick_V]
    split_ifs <;> simp [setV, store, F, Ne.symm hxF]
  · intro hyF
    have hyF2 : ry ≠ 15 := hyF
    simp only [subVxVy, h2, h3, tick_V]
    split_ifs <;> simp [setV, store, F, hxF, hyF2, u8i_cast]

theorem sub_vx_vy_witness :
    ∃ r, fde_cycle 0 sampleSub = .ok r ∧
      r.1.V F = (if sampleSub.V 1 > sampleSub.V 2 then 1 else 0) ∧
      (2 ≠ F → (r.1.V 1 : Int) = ((sampleSub.V 1 : Int) - (sampleSub.V 2 : Int)) % 256) :=
  sub_vx_vy 0 sampleSub 1 2 (by decide) (by decide) (by decide) (by decide)

/-! ## C3: SHR Vx and SHL Vx -/

theorem alu_shr (s : Machine) (h : n s.opcode = 6) : alu s = .ok (shrVx s) := by
  unfold n at h
  simp [alu, h]

theorem alu_shl (s : Machine) (h : n s.opcode = 0xE) : alu s = .ok (shlVx s) := by
  unfold n at h
  simp [alu, h]

/-- C3, as stated, fails for `x = 0xF`: with `V[0xF] = 3`, SHR VF (opcode
8F06) leaves `V[0xF] = 0`, while `3 & 1 = 1` and `3 >> 1 = 1`: the flag is
written first and then shifted out. -/
theorem shr_flag_register :
    word sampleShrFlag = 0x8006 + 0xF * 256 + 0 * 16 ∧
    sampleShrFlag.V 0xF = 3 ∧ 3 &&& 1 = 1 ∧ 3 >>> 1 = 1 ∧
    vAfter 0 sampleShrFlag 0xF = some 0 := by
  decide

/-- C3 (amended): for every state, every `x` in 0..14 and every 8-bit value
`v = V[x]`: a cycle executing SHR Vx (8xy6) yields `V[0xF] = v & 1` and
`V[x] = v >> 1`, and a cycle executing SHL Vx (8xyE) yields
`V[0xF] = v >> 7` and `V[x] = (v << 1) mod 256`. -/
theorem shr_shl (t : Nat) (s : Machine) (rx ry : Nat) (hx : rx < 15) (hy : ry < 16)
    (hv : s.V rx < 256) (hpc : s.pc + 1 < MEMORY_SIZE) :
    (word s = 0x8006 + rx * 256 + ry * 16 →
      ∃ r, fde_cycle t s = .ok r ∧ r.1.V F = s.V rx &&& 1 ∧ r.1.V rx = s.V rx >>> 1) ∧
    (word s = 0x800E + rx * 256 + ry * 16 →
      ∃ r, fde_cycle t s = .ok r ∧ r.1.V F = s.V rx >>> 7 ∧
        r.1.V rx = (s.V rx <<< 1) % 256) := by
  have hxF : rx ≠ 15 := by omega
  have hand : s.V rx &&& 1 = s.V rx % 2 := Nat.and_one_is_mod _
  constructor
  · intro hw
    obtain ⟨h1, h2, h3, h4, -, -⟩ :=
      decode_fields 8 rx ry 6 (by omega) (by omega) hy (by omega)
    have hw2 : word s = 8 * 4096 + rx * 256 + ry * 16 + 6 := by omega
    rw [fde_cycle_of_word t s _ hpc hw2]
    generalize 8 * 4096 + rx * 256 + ry * 16 + 6 = w at h1 h2 h3 h4
    rw [exec_alu _ _ h1, alu_shr _ h4]
    refine ⟨_, rfl, ?_, ?_⟩
    · simp only [shrVx, h2, tick_V]
      simp [setV, store, F, u8, Ne.symm hxF]
      omega
    · simp only [shrVx, h2, tick_V]
      simp [setV, store, F, u8, hxF, Nat.shiftRight_eq_div_pow]
      omega
  · intro hw
    obtain ⟨h1, h2, h3, h4, -, -⟩ :=
      decode_fields 8 rx ry 0xE (by omega) (by omega) hy (by omega)
    have hw2 : word s = 8 * 4096 + rx * 256 + ry * 16 + 0xE := by omega
    rw [fde_cycle_of_word t s _ hpc hw2]
    generalize 8 * 4096 + rx * 256 + ry * 16 + 0xE = w at h1 h2 h3 h4
    rw [exec_alu _ _ h1, alu_shl _ h4]
    refine ⟨_, rfl, ?_, ?_⟩
    · simp only [shlVx, h2, tick_V]
      simp [setV, store, F, u8, Ne.symm hxF, Nat.shiftRight_eq_div_pow]
      omega
    · simp only [shlVx, h2, tick_V]
      simp [setV, store, F, u8, hxF]

theorem shr_shl_witness :
    (∃ r, fde_cycle 0 sampleShr = .ok r ∧ r.1.V F = sampleShr.V 1 &&& 1 ∧
      r.1.V 1 = sampleShr.V 1 >>> 1) ∧
    (∃ r, fde_cycle 0 sampleShl = .ok r ∧ r.1.V F = sampleShl.V 1 >>> 7 ∧
      r.1.V 1 = (sampleShl.V 1 <<< 1) % 256) :=
  ⟨(shr_shl 0 sampleShr 1 2 (by decide) (by decide) (by decide) (by decide)).1 (by decide),
   (shr_shl 0 sampleShl 1 2 (by decide) (by decide) (by decide) (by decide)).2 (by decide)⟩

/-! ## C4: ROM size check of `load_rom` -/

/-- What `load_rom` does for every ROM length: the size check passes exactly
for ROMs of at most 4095 bytes, and the copy stays inside `memory` exactly
for ROMs of at most 3584 bytes. -/
theorem load_rom_cases (rom : List Nat) (s : Machine) :
    (rom.length ≤ 3584 → loadFault rom s = none ∧
      ∀ i, i < rom.length → loadedByte rom s (0x200 + i) = some (rom.getD i 0)) ∧
    (3584 < rom.length → rom.length ≤ 4095 → loadFault rom s = some .outOfBounds) ∧
    (4095 < rom.length → loadFault rom s = some .romSize) := by
  refine ⟨fun h => ⟨?_, fun i hi => ?_⟩, fun h1 h2 => ?_, fun h => ?_⟩
  · have h1 : ¬ ((rom.length : Int) + 1 ≤ 0 ∨ (rom.length : Int) + 1 > 4096) := by omega
    have h2 : 512 + min ((rom.length : Int) + 1).toNat rom.length ≤ MEMORY_SIZE := by
      unfold MEMORY_SIZE; omega
    simp only [loadFault, load_rom, h1, h2, if_true, if_false]
  · have h1 : ¬ ((rom.length : Int) + 1 ≤ 0 ∨ (rom.length : Int) + 1 > 4096) := by omega
    have h2 : 512 + min ((rom.length : Int) + 1).toNat rom.length ≤ MEMORY_SIZE := by
      unfold MEMORY_SIZE; omega
    have h3 : 512 ≤ 0x200 + i ∧ 0x200 + i < 512 + min ((rom.length : Int) + 1).toNat rom.length := by
      omega
    have h4 : 0x200 + i - 512 = i := by omega
    simp only [loadedByte, load_rom, h1, h2, h3, h4, if_true, if_false, and_self]
  · have h3 : ¬ ((rom.length : Int) + 1 ≤ 0 ∨ (rom.length : Int) + 1 > 4096) := by omega
    have h4 : ¬ 512 + min ((rom.length : Int) + 1).toNat rom.length ≤ MEMORY_SIZE := by
      unfold MEMORY_SIZE; omega
    simp only [loadFault, load_rom, h3, h4, if_false]
  · have h1 : ((rom.length : Int) + 1 ≤ 0 ∨ (rom.length : Int) + 1 > 4096) := by omega
    simp only [loadFault, load_rom, h1, if_true]

/-- C4 (the code at the failing inputs): a 0-byte ROM passes the size check
of `load_rom` and leaves memory as it was, although the claim and the
message of the check ("ROM size must be > 0") reject it; a 3585-byte ROM
passes the check too and is copied past `memory[4095]`.  A 4096-byte ROM is
rejected and a 3584-byte ROM is accepted, as claimed. -/
theorem load_rom_empty_accepted :
    loadFault [] (init_regs boot) = none ∧
    loadedByte [] (init_regs boot) 0x200 = some 0 ∧
    loadFault (List.replicate 3585 0xAA) (init_regs boot) = some Fault.outOfBounds ∧
    loadFault (List.replicate 4096 0xAA) (init_regs boot) = some Fault.romSize ∧
    loadFault (List.replicate 3584 0xAA) (init_regs boot) = none := by
  refine ⟨by decide, by decide, ?_, ?_, ?_⟩
  · exact (load_rom_cases _ _).2.1 (by rw [List.length_replicate]; omega)
      (by rw [List.length_replicate]; omega)
  · exact (load_rom_cases _ _).2.2 (by rw [List.length_replicate]; omega)
  · exact ((load_rom_cases _ _).1 (by rw [List.length_replicate])).1

/-! ## C5: opcodes outside the instruction set -/

/-- Every word `8xyN` with `N` outside `0..7, 0xE` aborts. -/
theorem alu_undefined_aborts (t : Nat) (s : Machine) (rx ry rn : Nat) (hx : rx < 16)
    (hy : ry < 16) (hn : rn < 16) (hu : 7 < rn ∧ rn ≠ 0xE) (hpc : s.pc + 1 < MEMORY_SIZE)
    (hw : word s = 0x8000 + rx * 256 + ry * 16 + rn) :
    fde_cycle t s = .error .abort := by
  obtain ⟨h1, -, -, h4, -, -⟩ := decode_fields 8 rx ry rn (by omega) hx hy hn
  have hw2 : word s = 8 * 4096 + rx * 256 + ry * 16 + rn := by omega
  rw [fde_cycle_of_word t s _ hpc hw2]
  generalize 8 * 4096 + rx * 256 + ry * 16 + rn = w at h1 h4
  rw [exec_alu _ _ h1]
  unfold n at h4
  have e0 : rn ≠ 0 := by omega
  have e1 : rn ≠ 1 := by omega
  have e2 : rn ≠ 2 := by omega
  have e3 : rn ≠ 3 := by omega
  have e4 : rn ≠ 4 := by omega
  have e5 : rn ≠ 5 := by omega
  have e6 : rn ≠ 6 := by omega
  have e7 : rn ≠ 7 := by omega
  have e14 : rn ≠ 14 := hu.2
  simp [alu, h4, e0, e1, e2, e3, e4, e5, e6, e7, e14]

/-- C5 (the code at the failing inputs): the words E000 (ExKK with KK
outside 9E, A1), 5121 (5xyN with N = 1) and 9121 (9xyN with N = 1) do not
abort: E000 is skipped with `pc` advanced to the next instruction, 5121 is
executed as SE V1,V2 (skipping, since both registers are 0) and 9121 as
SNE V1,V2.  Only the families 8 and F abort on an undefined sub-case, as
8008 and F000 do. -/
theorem undefined_opcode_not_fatal :
    faultOf 0 (started 0xE0 0x00) = none ∧ pcAfter 0 (started 0xE0 0x00) = some 0x202 ∧
    faultOf 0 (started 0x51 0x21) = none ∧ pcAfter 0 (started 0x51 0x21) = some 0x204 ∧
    faultOf 0 (started 0x91 0x21) = none ∧ pcAfter 0 (started 0x91 0x21) = some 0x202 ∧
    faultOf 0 (started 0x80 0x08) = some Fault.abort ∧
    faultOf 0 (started 0xF0 0x00) = some Fault.abort := by
  decide

/-! ## Loops in the error monad -/

/-- A property kept by every successful iteration is kept by the loop. -/
theorem foldlM_inv {α : Type} (P : Machine → Prop) (f : Machine → α → Except Fault Machine)
    (hf : ∀ a i a2, P a → f a i = .ok a2 → P a2) :
    ∀ (l : List α) (s s2 : Machine), P s → l.foldlM f s = .ok s2 → P s2 := by
  intro l
  induction l with
  | nil =>
    intro s s2 hs h
    simp only [List.foldlM_nil, pure, Except.pure, Except.ok.injEq] at h
    exact h ▸ hs
  | cons a l ih =>
    intro s s2 hs h
    rw [List.foldlM_cons] at h
    cases hfa : f s a with
    | error e => rw [hfa] at h; cases h
    | ok s1 =>
      rw [hfa] at h
      exact ih s1 s2 (hf s a s1 hs hfa) h

/-! ## Frames: observations that ignore the fields an instruction writes -/

theorem ite_ok_or {α ε : Type} (c : Prop) [Decidable c] (a b : Except ε α) (r : α)
    (h : (if c then a else b) = .ok r) : (c ∧ a = .ok r) ∨ (¬ c ∧ b = .ok r) := by
  by_cases hc : c
  · rw [if_pos hc] at h; exact Or.inl ⟨hc, h⟩
  · rw [if_neg hc] at h; exact Or.inr ⟨hc, h⟩

theorem ite_obs {β : Type} (p : Machine → β) (c : Prop) [Decidable c] (a b s : Machine)
    (ha : p a = p s) (hb : p b = p s) : p (if c then a else b) = p s := by
  by_cases hc : c
  · rw [if_pos hc]; exact ha
  · rw [if_neg hc]; exact hb

theorem foldl_inv {α : Type} (P : Machine → Prop) (f : Machine → α → Machine)
    (hf : ∀ a i, P a → P (f a i)) : ∀ (l : List α) (s : Machine), P s → P (l.foldl f s) := by
  intro l
  induction l with
  | nil => intro s hs; exact hs
  | cons a l ih => intro s hs; exact ih _ (hf s a hs)

theorem addVxVy_obs {β : Type} (p : Machine → β) (hp : ∀ s V2, p { s with V := V2 } = p s)
    (s : Machine) : p (addVxVy s) = p s :=
  (hp _ _).trans (ite_obs p _ _ _ s (hp _ _) (hp _ _))

theorem subVxVy_obs {β : Type} (p : Machine → β) (hp : ∀ s V2, p { s with V := V2 } = p s)
    (s : Machine) : p (subVxVy s) = p s :=
  (hp _ _).trans (ite_obs p _ _ _ s (hp _ _) (hp _ _))

theorem subnVxVy_obs {β : Type} (p : Machine → β) (hp : ∀ s V2, p { s with V := V2 } = p s)
    (s : Machine) : p (subnVxVy s) = p s :=
  (hp _ _).trans (ite_obs p _ _ _ s (hp _ _) (hp _ _))

theorem shrVx_obs {β : Type} (p : Machine → β) (hp : ∀ s V2, p { s with V := V2 } = p s)
    (s : Machine) : p (shrVx s) = p s :=
  (hp _ _).trans (hp _ _)

theorem shlVx_obs {β : Type} (p : Machine → β) (hp : ∀ s V2, p { s with V := V2 } = p s)
    (s : Machine) : p (shlVx s) = p s :=
  (hp _ _).trans (hp _ _)

/-- The case `0x8000` writes registers only. -/
theorem alu_obs {β : Type} (p : Machine → β) (hp : ∀ s V2, p { s with V := V2 } = p s)
    (s s2 : Machine) (h : alu s = .ok s2) : p s2 = p s := by
  unfold alu at h
  dsimp only at h
  rcases ite_ok_or _ _ _ _ h with ⟨-, h⟩ | ⟨-, h⟩
  · have h := Except.ok.inj h; subst h; exact hp _ _
  rcases ite_ok_or _ _ _ _ h with ⟨-, h⟩ | ⟨-, h⟩
  · have h := Except.ok.inj h; subst h; exact hp _ _
  rcases ite_ok_or _ _ _ _ h with ⟨-, h⟩ | ⟨-, h⟩
  · have h := Except.ok.inj h; subst h; exact hp _ _
  rcases ite_ok_or _ _ _ _ h with ⟨-, h⟩ | ⟨-, h⟩
  · have h := Except.ok.inj h; subst h; exact hp _ _
  rcases ite_ok_or _ _ _ _ h with ⟨-, h⟩ | ⟨-, h⟩
  · have h := Except.ok.inj h; subst h; exact addVxVy_obs p hp s
  rcases ite_ok_or _ _ _ _ h with ⟨-, h⟩ | ⟨-, h⟩
  · have h := Except.ok.inj h; subst h; exact subVxVy_obs p hp s
  rcases ite_ok_or _ _ _ _ h with ⟨-, h⟩ | ⟨-, h⟩
  · have h := Except.ok.inj h; subst h; exact shrVx_obs p hp s
  rcases ite_ok_or _ _ _ _ h with ⟨-, h⟩ | ⟨-, h⟩
  · have h := Except.ok.inj h; subst h; exact subnVxVy_obs p hp s
  rcases ite_ok_or _ _ _ _ h with ⟨-, h⟩ | ⟨-, h⟩
  · have h := Except.ok.inj h; subst h; exact shlVx_obs p hp s
  · cases h

/-- The case `0xE000` writes `pc` only. -/
theorem key_obs {β : Type} (p : Machine → β) (hp : ∀ s pc2, p { s with pc := pc2 } = p s)
    (s s2 : Machine) (h : key s = .ok s2) : p s2 = p s := by
  unfold key at h
  rcases ite_ok_or _ _ _ _ h with ⟨-, h⟩ | ⟨-, h⟩
  · rcases ite_ok_or _ _ _ _ h with ⟨-, h⟩ | ⟨-, h⟩
    · have h := Except.ok.inj h; subst h; exact ite_obs p _ _ _ s (hp _ _) rfl
    · cases h
  rcases ite_ok_or _ _ _ _ h with ⟨-, h⟩ | ⟨-, h⟩
  · rcases ite_ok_or _ _ _ _ h with ⟨-, h⟩ | ⟨-, h⟩
    · have h := Except.ok.inj h; subst h; exact ite_obs p _ _ _ s (hp _ _) rfl
    · cases h
  · have h := Except.ok.inj h; subst h; rfl

theorem setMem_obs {β : Type} (p : Machine → β) (hp : ∀ s m, p { s with memory := m } = p s)
    (s s2 : Machine) (a v : Nat) (h : setMem s a v = .ok s2) : p s2 = p s := by
  unfold setMem at h
  rcases ite_ok_or _ _ _ _ h with ⟨-, h⟩ | ⟨-, h⟩
  · have h := Except.ok.inj h; subst h; exact hp _ _
  · cases h

/-- The case `0xF000` writes registers, memory, `idx` and the timers only. -/
theorem misc_obs {β : Type} (p : Machine → β)
    (hp : ∀ s V2 m i d t, p { s with V := V2, memory := m, idx := i, dt := d, st := t } = p s)
    (s s2 : Machine) (h : misc s = .ok s2) : p s2 = p s := by
  have hV : ∀ s V2, p { s with V := V2 } = p s := fun s V2 => hp s V2 s.memory s.idx s.dt s.st
  have hm : ∀ s m, p { s with memory := m } = p s := fun s m => hp s s.V m s.idx s.dt s.st
  unfold misc at h
  dsimp only at h
  rcases ite_ok_or _ _ _ _ h with ⟨-, h⟩ | ⟨-, h⟩
  · have h := Except.ok.inj h; subst h; exact hV _ _
  rcases ite_ok_or _ _ _ _ h with ⟨-, h⟩ | ⟨-, h⟩
  · have h := Except.ok.inj h; subst h
    exact foldl_inv (fun a => p a = p s) _
      (fun a i ha => ite_obs p _ _ _ s ((hV _ _).trans ha) ha) _ s rfl
  rcases ite_ok_or _ _ _ _ h with ⟨-, h⟩ | ⟨-, h⟩
  · have h := Except.ok.inj h; subst h; exact hp s s.V s.memory s.idx _ s.st
  rcases ite_ok_or _ _ _ _ h with ⟨-, h⟩ | ⟨-, h⟩
  · have h := Except.ok.inj h; subst h; exact hp s s.V s.memory s.idx s.dt _
  rcases ite_ok_or _ _ _ _ h with ⟨-, h⟩ | ⟨-, h⟩
  · have h := Except.ok.inj h; subst h; exact hp s s.V s.memory _ s.dt s.st
  rcases ite_ok_or _ _ _ _ h with ⟨-, h⟩ | ⟨-, h⟩
  · have h := Except.ok.inj h; subst h; exact hp s s.V s.memory _ s.dt s.st
  rcases ite_ok_or _ _ _ _ h with ⟨-, h⟩ | ⟨-, h⟩
  · cases h1 : setMem s s.idx (u8 (s.V (x s.opcode) / 100)) with
    | error e => rw [h1] at h; cases h
    | ok s1 =>
      rw [h1] at h
      cases h2 : setMem s1 (s1.idx + 1) (u8 (s1.V (x s.opcode) / 10 % 10)) with
      | error e =>
        have h3 := h
        simp only [bind, Except.bind] at h3
        rw [h2] at h3
        cases h3
      | ok s3 =>
        have h3 := h
        simp only [bind, Except.bind] at h3
        rw [h2] at h3
        exact (setMem_obs p hm _ _ _ _ h3).trans
          ((setMem_obs p hm _ _ _ _ h2).trans (setMem_obs p hm _ _ _ _ h1))
  rcases ite_ok_or _ _ _ _ h with ⟨-, h⟩ | ⟨-, h⟩
  · exact foldlM_inv (fun a => p a = p s) _
      (fun a i a2 ha hf => (setMem_obs p hm _ _ _ _ hf).trans ha) _ s s2 rfl h
  rcases ite_ok_or _ _ _ _ h with ⟨-, h⟩ | ⟨-, h⟩
  · refine foldlM_inv (fun a => p a = p s) _ (fun a i a2 ha hf => ?_) _ s s2 rfl h
    rcases ite_ok_or _ _ _ _ hf with ⟨-, hf⟩ | ⟨-, hf⟩
    · have hf := Except.ok.inj hf; subst hf; exact (hV _ _).trans ha
    · cases hf
  · cases h

theorem drwPixel_obs {β : Type} (p : Machine → β)
    (hp : ∀ s V2 g d, p { s with V := V2, gfx := g, draw := d } = p s)
    (xd yd yline pix : Nat) (s s2 : Machine) (xline : Nat)
    (h : drwPixel xd yd yline pix s xline = .ok s2) : p s2 = p s := by
  unfold drwPixel at h
  dsimp only at h
  rcases ite_ok_or _ _ _ _ h with ⟨-, h⟩ | ⟨-, h⟩
  · rcases ite_ok_or _ _ _ _ h with ⟨-, h⟩ | ⟨-, h⟩
    · have h := Except.ok.inj h; subst h
      exact (hp _ _ _ _).trans (ite_obs p _ _ _ s (hp s _ s.gfx s.draw) rfl)
    · cases h
  · have h := Except.ok.inj h; subst h; rfl

theorem drwRow_obs {β : Type} (p : Machine → β)
    (hp : ∀ s V2 g d, p { s with V := V2, gfx := g, draw := d } = p s)
    (xd yd : Nat) (s s2 : Machine) (yline : Nat)
    (h : drwRow xd yd s yline = .ok s2) : p s2 = p s := by
  unfold drwRow at h
  rcases ite_ok_or _ _ _ _ h with ⟨-, h⟩ | ⟨-, h⟩
  · exact foldlM_inv (fun a => p a = p s) _
      (fun a i a2 ha hf => (drwPixel_obs p hp _ _ _ _ a a2 i hf).trans ha) _ s s2 rfl h
  · cases h

/-- The case `0xD000` writes registers, the framebuffer and `draw` only. -/
theorem drw_obs {β : Type} (p : Machine → β)
    (hp : ∀ s V2 g d, p { s with V := V2, gfx := g, draw := d } = p s)
    (s s2 : Machine) (h : drw s = .ok s2) : p s2 = p s := by
  unfold drw at h
  dsimp only at h
  cases hf : (List.range (n s.opcode)).foldlM
      (drwRow (s.V (x s.opcode)) (s.V (y s.opcode))) (setV s F 0) with
  | error e => rw [hf] at h; cases h
  | ok s3 =>
    rw [hf] at h
    have h := Except.ok.inj h; subst h
    have h3 : p s3 = p (setV s F 0) :=
      foldlM_inv (fun a => p a = p (setV s F 0)) _
        (fun a i a2 ha hf => (drwRow_obs p hp _ _ a a2 i hf).trans ha) _ _ s3 rfl hf
    exact (hp s3 s3.V s3.gfx 1).trans (h3.trans (hp s _ s.gfx s.draw))

/-- Outside the cases `0x0000`, `0x2000` and `0xD000`, the dispatcher writes
`pc`, `idx`, the timers, registers and memory only. -/
theorem exec_obs {β : Type} (p : Machine → β)
    (hp : ∀ s pc2 i d t V2 m,
      p { s with pc := pc2, idx := i, dt := d, st := t, V := V2, memory := m } = p s)
    (t : Nat) (s s2 : Machine) (h : exec t s = .ok s2)
    (h0 : s.opcode &&& 0xF000 ≠ 0x0000) (h2 : s.opcode &&& 0xF000 ≠ 0x2000)
    (hD : s.opcode &&& 0xF000 ≠ 0xD000) : p s2 = p s := by
  have hV : ∀ s V2, p { s with V := V2 } = p s :=
    fun s V2 => hp s s.pc s.idx s.dt s.st V2 s.memory
  have hpc : ∀ s pc2, p { s with pc := pc2 } = p s :=
    fun s pc2 => hp s pc2 s.idx s.dt s.st s.V s.memory
  unfold exec at h
  dsimp only at h
  rcases ite_ok_or _ _ _ _ h with ⟨hc, -⟩ | ⟨-, h⟩
  · exact absurd hc h0
  rcases ite_ok_or _ _ _ _ h with ⟨-, h⟩ | ⟨-, h⟩
  · have h := Except.ok.inj h; subst h; exact hpc _ _
  rcases ite_ok_or _ _ _ _ h with ⟨hc, -⟩ | ⟨-, h⟩
  · exact absurd hc h2
  rcases ite_ok_or _ _ _ _ h with ⟨-, h⟩ | ⟨-, h⟩
  · have h := Except.ok.inj h; subst h; exact ite_obs p _ _ _ s (hpc _ _) rfl
  rcases ite_ok_or _ _ _ _ h with ⟨-, h⟩ | ⟨-, h⟩
  · have h := Except.ok.inj h; subst h; exact ite_obs p _ _ _ s (hpc _ _) rfl
  rcases ite_ok_or _ _ _ _ h with ⟨-, h⟩ | ⟨-, h⟩
  · have h := Except.ok.inj h; subst h; exact ite_obs p _ _ _ s (hpc _ _) rfl
  rcases ite_ok_or _ _ _ _ h with ⟨-, h⟩ | ⟨-, h⟩
  · have h := Except.ok.inj h; subst h; exact hV _ _
  rcases ite_ok_or _ _ _ _ h with ⟨-, h⟩ | ⟨-, h⟩
  · have h := Except.ok.inj h; subst h; exact hV _ _
  rcases ite_ok_or _ _ _ _ h with ⟨-, h⟩ | ⟨-, h⟩
  · exact alu_obs p hV s s2 h
  rcases ite_ok_or _ _ _ _ h with ⟨-, h⟩ | ⟨-, h⟩
  · have h := Except.ok.inj h; subst h; exact ite_obs p _ _ _ s (hpc _ _) rfl
  rcases ite_ok_or _ _ _ _ h with ⟨-, h⟩ | ⟨-, h⟩
  · have h := Except.ok.inj h; subst h; exact hp s s.pc _ s.dt s.st s.V s.memory
  rcases ite_ok_or _ _ _ _ h with ⟨-, h⟩ | ⟨-, h⟩
  · have h := Except.ok.inj h; subst h; exact hpc _ _
  rcases ite_ok_or _ _ _ _ h with ⟨-, h⟩ | ⟨-, h⟩
  · have h := Except.ok.inj h; subst h; exact hV _ _
  rcases ite_ok_or _ _ _ _ h with ⟨hc, -⟩ | ⟨-, h⟩
  · exact absurd hc hD
  rcases ite_ok_or _ _ _ _ h with ⟨-, h⟩ | ⟨-, h⟩
  · exact key_obs p hpc s s2 h
  rcases ite_ok_or _ _ _ _ h with ⟨-, h⟩ | ⟨-, h⟩
  · exact misc_obs p (fun s V2 m i d t => hp s s.pc i d t V2 m) s s2 h
  · cases h

theorem exec_sys (t : Nat) (s : Machine) (h : s.opcode &&& 0xF000 = 0x0000) :
    exec t s = sys s := by
  simp only [exec, h, if_true]

theorem exec_call (t : Nat) (s : Machine) (h : s.opcode &&& 0xF000 = 0x2000) :
    exec t s = call s := by
  simp [exec, h]

theorem exec_drw (t : Nat) (s : Machine) (h : s.opcode &&& 0xF000 = 0xD000) :
    exec t s = drw s := by
  simp [exec, h]


/-! ## C6: the stack pointer -/

/-- A successful cycle is a successful fetch, dispatch and tick. -/
theorem fde_cycle_ok (t : Nat) (s : Machine) (r : Machine × Bool)
    (h : fde_cycle t s = .ok r) :
    s.pc + 1 < MEMORY_SIZE ∧
    ∃ s2, exec t { s with opcode := word s, nnn := word s &&& 0xFFF, pc := u16 (s.pc + 2) }
      = .ok s2 ∧ r = tick s2 := by
  unfold fde_cycle fetch at h
  by_cases hpc : s.pc + 1 < MEMORY_SIZE
  · rw [if_pos hpc] at h
    dsimp only at h
    refine ⟨hpc, ?_⟩
    cases he : exec t { s with opcode := word s, nnn := word s &&& 0xFFF,
                               pc := u16 (s.pc + 2) } with
    | error e => rw [he] at h; cases h
    | ok s2 => rw [he] at h; exact ⟨s2, rfl, (Except.ok.inj h).symm⟩
  · rw [if_neg hpc] at h
    cases h

/-- One cycle executing CALL `a` with a free cell in the stack array. -/
theorem call_step (t : Nat) (s : Machine) (a : Nat) (ha : a < 4096)
    (hsp : s.sp < STACK_SIZE + 1) (hpc : s.pc + 1 < MEMORY_SIZE) (hw : word s = 0x2000 + a) :
    ∃ r, fde_cycle t s = .ok r ∧ r.1.pc = a ∧ r.1.sp = s.sp + 1 ∧
      r.1.stack s.sp = s.pc + 2 ∧ r.1.memory = s.memory := by
  have hfam : (0x2000 + a) &&& 0xF000 = 0x2000 := by rw [and_F000_eq]; omega
  have hnnn : (0x2000 + a) &&& 0xFFF = a := by rw [and_FFF_eq_mod]; omega
  rw [fde_cycle_of_word t s _ hpc hw, exec_call _ _ hfam]
  unfold call
  rw [if_pos hsp]
  dsimp only
  unfold STACK_SIZE at hsp
  unfold MEMORY_SIZE at hpc
  refine ⟨_, rfl, ?_, ?_, ?_, ?_⟩
  · rw [tick_pc]; exact hnnn
  · rw [tick_sp]; show u8 (s.sp + 1) = s.sp + 1; unfold u8; omega
  · rw [tick_stack]
    show store s.stack s.sp (u16 (s.pc + 2)) s.sp = s.pc + 2
    unfold store u16
    rw [if_pos rfl]; omega
  · rw [tick_memory]

/-- One cycle executing RET with a stack pointer in `1..16`. -/
theorem ret_step (t : Nat) (s : Machine) (hsp1 : 1 ≤ s.sp) (hsp2 : s.sp ≤ STACK_SIZE + 1)
    (hpc : s.pc + 1 < MEMORY_SIZE) (hw : word s = 0x00EE) :
    ∃ r, fde_cycle t s = .ok r ∧ r.1.pc = s.stack (s.sp - 1) ∧ r.1.sp = s.sp - 1 := by
  rw [fde_cycle_of_word t s _ hpc hw, exec_sys _ _ (by dsimp only; decide)]
  unfold sys
  rw [if_neg (by dsimp only; decide), if_pos rfl]
  dsimp only
  unfold STACK_SIZE at hsp2
  have e : u8i ((s.sp : Int) - 1) = s.sp - 1 := by unfold u8i; omega
  rw [e, if_pos (by unfold STACK_SIZE; omega)]
  exact ⟨_, rfl, by rw [tick_pc], by rw [tick_sp]⟩

/-- C7: from a state whose stack array has a free cell, a cycle executing
CALL nnn at address `p` followed by a cycle executing the RET stored at
`nnn` leaves `pc = p + 2`, the address of the instruction after the CALL,
and `sp` as it was before the CALL. -/
theorem call_ret (t1 t2 : Nat) (s : Machine) (a : Nat) (ha : a + 1 < MEMORY_SIZE)
    (hsp : s.sp < STACK_SIZE + 1) (hpc : s.pc + 1 < MEMORY_SIZE)
    (hw : word s = 0x2000 + a) (hm0 : s.memory a = 0x00) (hm1 : s.memory (a + 1) = 0xEE) :
    ∃ r1 r2, fde_cycle t1 s = .ok r1 ∧ fde_cycle t2 r1.1 = .ok r2 ∧
      r2.1.pc = s.pc + 2 ∧ r2.1.sp = s.sp := by
  obtain ⟨r1, e1, p1, sp1, st1, m1⟩ :=
    call_step t1 s a (by unfold MEMORY_SIZE at ha; omega) hsp hpc hw
  have hw2 : word r1.1 = 0x00EE := by
    unfold word
    rw [m1, p1, hm0, hm1]
    rfl
  obtain ⟨r2, e2, p2, sp2⟩ :=
    ret_step t2 r1.1 (by omega) (by omega) (by rw [p1]; exact ha) hw2
  refine ⟨r1, r2, e1, e2, ?_, ?_⟩
  · rw [p2, sp1, Nat.add_sub_cancel, st1]
  · rw [sp2, sp1, Nat.add_sub_cancel]

theorem call_ret_witness :
    ∃ r1 r2, fde_cycle 0 sampleCallRet = .ok r1 ∧ fde_cycle 0 r1.1 = .ok r2 ∧
      r2.1.pc = sampleCallRet.pc + 2 ∧ r2.1.sp = sampleCallRet.sp :=
  call_ret 0 0 sampleCallRet 0x300 (by decide) (by decide) (by decide) (by decide)
    (by decide) (by decide)

/-! ## C10: LD B,Vx -/

theorem exec_misc (t : Nat) (s : Machine) (h : s.opcode &&& 0xF000 = 0xF000) :
    exec t s = misc s := by
  simp [exec, h]

theorem misc_bcd (s : Machine) (h : kk s.opcode = 0x33) (hi : s.idx + 2 < MEMORY_SIZE) :
    misc s = .ok { s with memory := (
      store (store (store s.memory s.idx (u8 (s.V (x s.opcode) / 100)))
        (s.idx + 1) (u8 (s.V (x s.opcode) / 10 % 10)))
        (s.idx + 2) (u8 (s.V (x s.opcode) % 10))) } := by
  have h0 : s.idx < MEMORY_SIZE := by omega
  have h1 : s.idx + 1 < MEMORY_SIZE := by omega
  simp [misc, h, setMem, h0, h1, hi, bind, Except.bind]

/-- C10: for every 8-bit `v = V[x]` and `I + 2 <= 4095`, a cycle executing
LD B,Vx (Fx33) writes `memory[I] = v / 100`, `memory[I+1] = (v / 10) mod 10`
and `memory[I+2] = v mod 10`; each written byte is at most 9, the three
digits give back `v`, and no other memory byte, no register and not `I`
changes.  For `v = 234` the bytes written are 2, 3, 4. -/
theorem ld_b_vx (t : Nat) (s : Machine) (rx : Nat) (hx : rx < 16) (hv : s.V rx < 256)
    (hi : s.idx + 2 ≤ 4095) (hpc : s.pc + 1 < MEMORY_SIZE)
    (hw : word s = 0xF033 + rx * 256) :
    ∃ r, fde_cycle t s = .ok r ∧
      r.1.memory s.idx = s.V rx / 100 ∧
      r.1.memory (s.idx + 1) = s.V rx / 10 % 10 ∧
      r.1.memory (s.idx + 2) = s.V rx % 10 ∧
      r.1.memory s.idx ≤ 9 ∧ r.1.memory (s.idx + 1) ≤ 9 ∧ r.1.memory (s.idx + 2) ≤ 9 ∧
      100 * r.1.memory s.idx + 10 * r.1.memory (s.idx + 1) + r.1.memory (s.idx + 2)
        = s.V rx ∧
      (∀ a, a ≠ s.idx → a ≠ s.idx + 1 → a ≠ s.idx + 2 → r.1.memory a = s.memory a) ∧
      r.1.V = s.V ∧ r.1.idx = s.idx ∧
      (s.V rx = 234 → r.1.memory s.idx = 2 ∧ r.1.memory (s.idx + 1) = 3 ∧
        r.1.memory (s.idx + 2) = 4) := by
  obtain ⟨h1, h2, -, -, h5, -⟩ := decode_fields 0xF rx 3 3 (by omega) hx (by omega) (by omega)
  have hw2 : word s = 0xF * 4096 + rx * 256 + 3 * 16 + 3 := by omega
  rw [fde_cycle_of_word t s _ hpc hw2]
  generalize 0xF * 4096 + rx * 256 + 3 * 16 + 3 = w at h1 h2 h5
  rw [exec_misc _ _ h1, misc_bcd _ h5 (by unfold MEMORY_SIZE; dsimp only; omega)]
  dsimp only
  rw [h2]
  have m0 : store (store (store s.memory s.idx (u8 (s.V rx / 100)))
        (s.idx + 1) (u8 (s.V rx / 10 % 10)))
        (s.idx + 2) (u8 (s.V rx % 10)) s.idx = s.V rx / 100 := by
    simp [store, u8]; omega
  have m1 : store (store (store s.memory s.idx (u8 (s.V rx / 100)))
        (s.idx + 1) (u8 (s.V rx / 10 % 10)))
        (s.idx + 2) (u8 (s.V rx % 10)) (s.idx + 1) = s.V rx / 10 % 10 := by
    simp [store, u8]; omega
  have m2 : store (store (store s.memory s.idx (u8 (s.V rx / 100)))
        (s.idx + 1) (u8 (s.V rx / 10 % 10)))
        (s.idx + 2) (u8 (s.V rx % 10)) (s.idx + 2) = s.V rx % 10 := by
    simp [store, u8]; omega
  refine ⟨_, rfl, ?_, ?_, ?_, ?_, ?_, ?_, ?_, ?_, ?_, ?_, ?_⟩
  · rw [tick_memory]; exact m0
  · rw [tick_memory]; exact m1
  · rw [tick_memory]; exact m2
  · rw [tick_memory]; dsimp only; rw [m0]; omega
  · rw [tick_memory]; dsimp only; rw [m1]; omega
  · rw [tick_memory]; dsimp only; rw [m2]; omega
  · rw [tick_memory]; dsimp only; rw [m0, m1, m2]; omega
  · intro a a0 a1 a2
    rw [tick_memory]
    simp [store, a0, a1, a2]
  · rw [tick_V]
  · rw [tick_idx]
  · intro h234
    rw [tick_memory]; dsimp only
    rw [m0, m1, m2, h234]
    decide

theorem ld_b_vx_witness :
    ∃ r, fde_cycle 0 sampleBcd = .ok r ∧
      r.1.memory sampleBcd.idx = sampleBcd.V 1 / 100 ∧
      r.1.memory (sampleBcd.idx + 1) = sampleBcd.V 1 / 10 % 10 ∧
      r.1.memory (sampleBcd.idx + 2) = sampleBcd.V 1 % 10 ∧
      r.1.memory sampleBcd.idx ≤ 9 ∧ r.1.memory (sampleBcd.idx + 1) ≤ 9 ∧
      r.1.memory (sampleBcd.idx + 2) ≤ 9 ∧
      100 * r.1.memory sampleBcd.idx + 10 * r.1.memory (sampleBcd.idx + 1) +
        r.1.memory (sampleBcd.idx + 2) = sampleBcd.V 1 ∧
      (∀ a, a ≠ sampleBcd.idx → a ≠ sampleBcd.idx + 1 → a ≠ sampleBcd.idx + 2 →
        r.1.memory a = sampleBcd.memory a) ∧
      r.1.V = sampleBcd.V ∧ r.1.idx = sampleBcd.idx ∧
      (sampleBcd.V 1 = 234 → r.1.memory sampleBcd.idx = 2 ∧
        r.1.memory (sampleBcd.idx + 1) = 3 ∧ r.1.memory (sampleBcd.idx + 2) = 4) :=
  ld_b_vx 0 sampleBcd 1 (by decide) (by decide) (by decide) (by decide) (by decide)

/-! ## C9: DRW against its reference definition -/

/-- A loop over `0..n-1` whose every iteration succeeds and re-establishes
the invariant succeeds and establishes it for `n`. -/
theorem foldlM_range_inv (f : Machine → Nat → Except Fault Machine)
    (Inv : Nat → Machine → Prop) (n : Nat) (s : Machine) (h0 : Inv 0 s)
    (hstep : ∀ i a, i < n → Inv i a → ∃ a2, f a i = .ok a2 ∧ Inv (i + 1) a2) :
    ∃ s2, (List.range n).foldlM f s = .ok s2 ∧ Inv n s2 := by
  induction n with
  | zero => exact ⟨s, rfl, h0⟩
  | succ m ih =>
    obtain ⟨s1, e1, i1⟩ := ih (fun i a hi => hstep i a (by omega))
    obtain ⟨s2, e2, i2⟩ := hstep m s1 (by omega) i1
    refine ⟨s2, ?_, i2⟩
    rw [List.range_succ, List.foldlM_append, e1]
    show (List.foldlM f s1 [m] : Except Fault Machine) = .ok s2
    rw [List.foldlM_cons, e2]
    rfl

/-- The test `(pix & (0x80 >> xline)) != 0` reads bit `7 - xline` of `pix`. -/
theorem bit_test (pix col : Nat) (hc : col < 8) :
    pix &&& (0x80 >>> col) ≠ 0 ↔ (pix >>> (7 - col)) % 2 = 1 := by
  have h2 : (0x80 : Nat) >>> col = 2 ^ (7 - col) := by
    interval_cases col <;> rfl
  rw [h2, Nat.and_two_pow, Nat.shiftRight_eq_div_pow, ← Nat.toNat_testBit]
  cases pix.testBit (7 - col) <;> simp

theorem xor_one_u8 (g : Nat) (hg : g < 256) : u8 (g ^^^ 1) = g ^^^ 1 := by
  unfold u8
  exact Nat.mod_eq_of_lt (Nat.xor_lt_two_pow (n := 8) hg (by decide))

theorem pixelIndex_inj (xd yd r1 c1 r2 c2 : Nat) (h1 : c1 < 8) (h2 : c2 < 8)
    (h : pixelIndex xd yd r1 c1 = pixelIndex xd yd r2 c2) : r1 = r2 ∧ c1 = c2 := by
  unfold pixelIndex at h
  omega

/-- One iteration of the inner loop of DRW. -/
theorem drwPixel_ok (xd yd row pix : Nat) (b : Machine) (col : Nat) (hc : col < 8)
    (hk : pixelIndex xd yd row col < GFX_SIZE) :
    ∃ b2, drwPixel xd yd row pix b col = .ok b2 ∧
      b2.memory = b.memory ∧ b2.idx = b.idx ∧
      (∀ j, j ≠ pixelIndex xd yd row col → b2.gfx j = b.gfx j) ∧
      (b.gfx (pixelIndex xd yd row col) < 256 →
        b2.gfx (pixelIndex xd yd row col) =
          b.gfx (pixelIndex xd yd row col) ^^^ ((pix >>> (7 - col)) % 2)) ∧
      ((pix >>> (7 - col)) % 2 = 1 → b.gfx (pixelIndex xd yd row col) = 1 → b2.V F = 1) ∧
      (¬ ((pix >>> (7 - col)) % 2 = 1 ∧ b.gfx (pixelIndex xd yd row col) = 1) →
        b2.V F = b.V F) := by
  have hk2 : xd + col + (yd + row) * 64 < GFX_SIZE := hk
  unfold drwPixel pixelIndex
  dsimp only
  by_cases hb : pix &&& (0x80 >>> col) ≠ 0
  · have hbit : (pix >>> (7 - col)) % 2 = 1 := (bit_test pix col hc).1 hb
    rw [if_pos hb, if_pos hk2]
    refine ⟨_, rfl, ?_, ?_, ?_, ?_, ?_, ?_⟩
    · by_cases h1 : b.gfx (xd + col + (yd + row) * 64) = 1
      · rw [if_pos h1]; rfl
      · rw [if_neg h1]
    · by_cases h1 : b.gfx (xd + col + (yd + row) * 64) = 1
      · rw [if_pos h1]; rfl
      · rw [if_neg h1]
    · intro j hj
      have hj2 : j ≠ xd + col + (yd + row) * 64 := hj
      by_cases h1 : b.gfx (xd + col + (yd + row) * 64) = 1
      · rw [if_pos h1]; show store _ _ _ j = _; unfold store; rw [if_neg hj2]; rfl
      · rw [if_neg h1]; show store _ _ _ j = _; unfold store; rw [if_neg hj2]
    · intro hg
      have hg2 : b.gfx (xd + col + (yd + row) * 64) < 256 := hg
      rw [hbit]
      show _ = b.gfx (xd + col + (yd + row) * 64) ^^^ 1
      by_cases h1 : b.gfx (xd + col + (yd + row) * 64) = 1
      · rw [if_pos h1]
        show store _ _ _ _ = _
        unfold store; rw [if_pos rfl]
        exact xor_one_u8 _ hg2
      · rw [if_neg h1]
        show store _ _ _ _ = _
        unfold store; rw [if_pos rfl]
        exact xor_one_u8 _ hg2
    · intro _ h1
      have h1b : b.gfx (xd + col + (yd + row) * 64) = 1 := h1
      rw [if_pos h1b]
      show store b.V F 1 F = 1
      unfold store; rw [if_pos rfl]
    · intro hn
      have h1 : ¬ b.gfx (xd + col + (yd + row) * 64) = 1 := fun h => hn ⟨hbit, h⟩
      rw [if_neg h1]
  · have hbit : ¬ (pix >>> (7 - col)) % 2 = 1 := fun h => hb ((bit_test pix col hc).2 h)
    have hbit0 : (pix >>> (7 - col)) % 2 = 0 := by omega
    rw [if_neg hb]
    refine ⟨_, rfl, rfl, rfl, fun _ _ => rfl, ?_, ?_, fun _ => rfl⟩
    · intro _
      rw [hbit0, Nat.xor_zero]
    · intro h; exact absurd h hbit

/-- One iteration of the outer loop of DRW. -/
theorem drwRow_ok (xd yd : Nat) (b : Machine) (row : Nat)
    (hidx : b.idx + row < MEMORY_SIZE)
    (hk : ∀ col, col < 8 → pixelIndex xd yd row col < GFX_SIZE)
    (hg : ∀ col, col < 8 → b.gfx (pixelIndex xd yd row col) < 256) :
    ∃ b2, drwRow xd yd b row = .ok b2 ∧ RowInv xd yd row b 8 b2 := by
  unfold drwRow
  rw [if_pos hidx]
  dsimp only
  refine foldlM_range_inv _ (RowInv xd yd row b) 8 b ?_ ?_
  · refine ⟨rfl, rfl, ?_, fun _ _ => rfl, ?_, fun _ => rfl⟩
    · intro col hcol; omega
    · rintro ⟨col, hcol, -⟩; omega
  · intro c a hc ⟨im, ii, ig, io, ih1, ih0⟩
    obtain ⟨a2, e, pm, pi, po, pg, p1, p0⟩ :=
      drwPixel_ok xd yd row (b.memory (b.idx + row)) a c hc (hk c hc)
    have hcur : a.gfx (pixelIndex xd yd row c) = b.gfx (pixelIndex xd yd row c) :=
      io _ (fun col hcol heq => by
        have := (pixelIndex_inj xd yd row c row col hc (by omega) heq).2
        omega)
    have hbit : (b.memory (b.idx + row) >>> (7 - c)) % 2 = spriteBit b row c := rfl
    rw [hbit] at pg p1 p0
    refine ⟨a2, e, pm.trans im, pi.trans ii, ?_, ?_, ?_, ?_⟩
    · intro col hcol
      by_cases hcc : col = c
      · subst hcc
        rw [pg (by rw [hcur]; exact hg col hc), hcur]
      · have hne : pixelIndex xd yd row col ≠ pixelIndex xd yd row c := fun heq =>
          hcc (pixelIndex_inj xd yd row col row c (by omega) hc heq).2
        rw [po _ hne]
        exact ig col (by omega)
    · intro j hj
      rw [po j (hj c (by omega))]
      exact io j (fun col hcol => hj col (by omega))
    · rintro ⟨col, hcol, hb1, hg1⟩
      by_cases hnow : spriteBit b row c = 1 ∧ a.gfx (pixelIndex xd yd row c) = 1
      · exact p1 hnow.1 hnow.2
      · rw [p0 hnow]
        by_cases hcc : col = c
        · subst hcc
          exact absurd ⟨hb1, hcur.trans hg1⟩ hnow
        · exact ih1 ⟨col, by omega, hb1, hg1⟩
    · intro hno
      have hnow : ¬ (spriteBit b row c = 1 ∧ a.gfx (pixelIndex xd yd row c) = 1) :=
        fun h => hno ⟨c, by omega, h.1, hcur ▸ h.2⟩
      rw [p0 hnow]
      exact ih0 (fun ⟨col, hcol, hb1, hg1⟩ => hno ⟨col, by omega, hb1, hg1⟩)

/-- The two loops of DRW, started in a state `a0` that agrees with `s` on
memory, `idx` and the framebuffer and has `V[0xF] = 0`. -/
theorem drwLoops_ok (xd yd hd : Nat) (s a0 : Machine)
    (hm : a0.memory = s.memory) (hi : a0.idx = s.idx) (hgf : a0.gfx = s.gfx)
    (hF : a0.V F = 0)
    (hidx : s.idx + hd ≤ MEMORY_SIZE)
    (hk : ∀ row col, row < hd → col < 8 → pixelIndex xd yd row col < GFX_SIZE)
    (hg : ∀ j, s.gfx j < 256) :
    ∃ s2, (List.range hd).foldlM (drwRow xd yd) a0 = .ok s2 ∧ DrwInv xd yd s hd s2 := by
  refine foldlM_range_inv _ (DrwInv xd yd s) hd a0 ?_ ?_
  · refine ⟨hm, hi, ?_, fun j _ => by rw [hgf], ?_, fun _ => hF⟩
    · intro row col hrow; omega
    · rintro ⟨row, col, hrow, -⟩; omega
  · intro r a hr ⟨im, ii, ig, io, ih1, ih0⟩
    have hcur : ∀ col, col < 8 →
        a.gfx (pixelIndex xd yd r col) = s.gfx (pixelIndex xd yd r col) :=
      fun col hcol => io _ (fun row col2 hrow hcol2 heq => by
        have := (pixelIndex_inj xd yd r col row col2 hcol hcol2 heq).1
        omega)
    obtain ⟨a2, e, pm, pi, pg, po, p1, p0⟩ :=
      drwRow_ok xd yd a r (by rw [ii]; omega) (fun col hcol => hk r col hr hcol)
        (fun col hcol => by rw [hcur col hcol]; exact hg _)
    have hbit : ∀ col, spriteBit a r col = spriteBit s r col := by
      intro col; unfold spriteBit; rw [im, ii]
    refine ⟨a2, e, pm.trans im, pi.trans ii, ?_, ?_, ?_, ?_⟩
    · intro row col hrow hcol
      by_cases hrr : row = r
      · subst hrr
        rw [pg col hcol, hcur col hcol, hbit]
      · have hne : ∀ col2, col2 < 8 → pixelIndex xd yd row col ≠ pixelIndex xd yd r col2 :=
          fun col2 hcol2 heq => hrr (pixelIndex_inj xd yd row col r col2 hcol hcol2 heq).1
        rw [po _ hne]
        exact ig row col (by omega) hcol
    · intro j hj
      rw [po j (fun col hcol => hj r col (by omega) hcol)]
      exact io j (fun row col hrow hcol => hj row col (by omega) hcol)
    · rintro ⟨row, col, hrow, hcol, hb1, hg1⟩
      by_cases hnow : ∃ c, c < 8 ∧ spriteBit a r c = 1 ∧ a.gfx (pixelIndex xd yd r c) = 1
      · exact p1 hnow
      · rw [p0 hnow]
        by_cases hrr : row = r
        · subst hrr
          exact absurd ⟨col, hcol, (hbit col).trans hb1, (hcur col hcol).trans hg1⟩ hnow
        · exact ih1 ⟨row, col, by omega, hcol, hb1, hg1⟩
    · intro hno
      have hnow : ¬ ∃ c, c < 8 ∧ spriteBit a r c = 1 ∧ a.gfx (pixelIndex xd yd r c) = 1 :=
        fun ⟨c, hc, hb1, hg1⟩ =>
          hno ⟨r, c, by omega, hc, (hbit c).symm.trans hb1, (hcur c hc).symm.trans hg1⟩
      rw [p0 hnow]
      exact ih0 (fun ⟨row, col, hrow, hcol, hb1, hg1⟩ =>
        hno ⟨row, col, by omega, hcol, hb1, hg1⟩)

/-- One cycle executing DRW Vx,Vy,n with all touched cells inside the
framebuffer and the sprite inside memory. -/
theorem drw_cycle (t : Nat) (s : Machine) (rx ry rn : Nat) (hx : rx < 16) (hy : ry < 16)
    (hn : rn < 16) (hpc : s.pc + 1 < MEMORY_SIZE)
    (hw : word s = 0xD000 + rx * 256 + ry * 16 + rn)
    (hidx : s.idx + rn ≤ 4096)
    (hk : ∀ row col, row < rn → col < 8 → pixelIndex (s.V rx) (s.V ry) row col < 2048)
    (hg : ∀ j, s.gfx j < 256) :
    ∃ r, fde_cycle t s = .ok r ∧ DrwInv (s.V rx) (s.V ry) s rn r.1 ∧
      r.1.draw = 1 ∧ r.1.pc = u16 (s.pc + 2) := by
  obtain ⟨h1, h2, h3, h4, -, -⟩ := decode_fields 0xD rx ry rn (by omega) hx hy hn
  have hw2 : word s = 0xD * 4096 + rx * 256 + ry * 16 + rn := by omega
  rw [fde_cycle_of_word t s _ hpc hw2]
  generalize 0xD * 4096 + rx * 256 + ry * 16 + rn = w at h1 h2 h3 h4
  rw [exec_drw _ _ h1]
  obtain ⟨s2, e, inv⟩ := drwLoops_ok (s.V rx) (s.V ry) rn s
    (setV { s with opcode := w, nnn := w &&& 0xFFF, pc := u16 (s.pc + 2) } F 0)
    rfl rfl rfl (by show store s.V F 0 F = 0; unfold store; rw [if_pos rfl])
    hidx hk hg
  have hd : drw { s with opcode := w, nnn := w &&& 0xFFF, pc := u16 (s.pc + 2) }
      = .ok { s2 with draw := 1 } := by
    unfold drw
    dsimp only
    rw [h2, h3, h4, e]
  rw [hd]
  have hpc2 : ({ s2 with draw := 1 } : Machine).pc = u16 (s.pc + 2) :=
    drw_obs Machine.pc (fun _ _ _ _ => rfl) _ _ hd
  obtain ⟨im, ii, ig, io, ih1, ih0⟩ := inv
  refine ⟨_, rfl, ⟨?_, ?_, ?_, ?_, ?_, ?_⟩, ?_, ?_⟩
  · rw [tick_memory]; exact im
  · rw [tick_idx]; exact ii
  · rw [tick_gfx]; exact ig
  · rw [tick_gfx]; exact io
  · rw [tick_V]; exact ih1
  · rw [tick_V]; exact ih0
  · rw [tick_draw]
  · rw [tick_pc]; exact hpc2

/-- C9: for every state whose framebuffer cells are bytes, if all touched
indices `Vx + col + (Vy + row) * 64` (row < n, col < 8) are below 2048 and
`I + n <= 4096`, a cycle executing DRW Vx,Vy,n yields a state in which each
touched cell is its old value XOR bit `7 - col` of `memory[I + row]`, every
other cell is unchanged, `V[0xF]` is 1 if some cell that held 1 was hit by a
set sprite bit and 0 otherwise, and the draw flag is 1. -/
theorem drw_reference (t : Nat) (s : Machine) (rx ry rn : Nat) (hx : rx < 16) (hy : ry < 16)
    (hn : rn < 16) (hpc : s.pc + 1 < MEMORY_SIZE)
    (hw : word s = 0xD000 + rx * 256 + ry * 16 + rn)
    (hidx : s.idx + rn ≤ 4096)
    (hk : ∀ row col, row < rn → col < 8 → pixelIndex (s.V rx) (s.V ry) row col < 2048)
    (hg : ∀ j, s.gfx j < 256) :
    ∃ r, fde_cycle t s = .ok r ∧
      (∀ row col, row < rn → col < 8 →
        r.1.gfx (pixelIndex (s.V rx) (s.V ry) row col) =
          s.gfx (pixelIndex (s.V rx) (s.V ry) row col) ^^^ spriteBit s row col) ∧
      (∀ j, (∀ row col, row < rn → col < 8 → j ≠ pixelIndex (s.V rx) (s.V ry) row col) →
        r.1.gfx j = s.gfx j) ∧
      ((∃ row col, row < rn ∧ col < 8 ∧ spriteBit s row col = 1 ∧
          s.gfx (pixelIndex (s.V rx) (s.V ry) row col) = 1) → r.1.V F = 1) ∧
      ((¬ ∃ row col, row < rn ∧ col < 8 ∧ spriteBit s row col = 1 ∧
          s.gfx (pixelIndex (s.V rx) (s.V ry) row col) = 1) → r.1.V F = 0) ∧
      r.1.draw = 1 := by
  obtain ⟨r, e, ⟨-, -, ig, io, ih1, ih0⟩, hdraw, -⟩ :=
    drw_cycle t s rx ry rn hx hy hn hpc hw hidx hk hg
  exact ⟨r, e, ig, io, ih1, ih0, hdraw⟩

theorem sampleDrw_gfx (j : Nat) : sampleDrw.gfx j = 0 := by
  show (if j < GFX_SIZE then 0 else 0) = 0
  by_cases h : j < GFX_SIZE
  · rw [if_pos h]
  · rw [if_neg h]

theorem drw_reference_witness :
    (∃ r, fde_cycle 0 sampleDrw = .ok r ∧
      (∀ row col, row < 5 → col < 8 →
        r.1.gfx (pixelIndex (sampleDrw.V 0) (sampleDrw.V 0) row col) =
          sampleDrw.gfx (pixelIndex (sampleDrw.V 0) (sampleDrw.V 0) row col)
            ^^^ spriteBit sampleDrw row col) ∧
      (∀ j, (∀ row col, row < 5 → col < 8 →
          j ≠ pixelIndex (sampleDrw.V 0) (sampleDrw.V 0) row col) →
        r.1.gfx j = sampleDrw.gfx j) ∧
      ((∃ row col, row < 5 ∧ col < 8 ∧ spriteBit sampleDrw row col = 1 ∧
          sampleDrw.gfx (pixelIndex (sampleDrw.V 0) (sampleDrw.V 0) row col) = 1) →
        r.1.V F = 1) ∧
      ((¬ ∃ row col, row < 5 ∧ col < 8 ∧ spriteBit sampleDrw row col = 1 ∧
          sampleDrw.gfx (pixelIndex (sampleDrw.V 0) (sampleDrw.V 0) row col) = 1) →
        r.1.V F = 0) ∧
      r.1.draw = 1) ∧
    rowAfter 0 sampleDrw 0 = some [1, 1, 1, 1, 0, 0, 0, 0] ∧
    rowAfter 0 sampleDrw 1 = some [1, 0, 0, 1, 0, 0, 0, 0] ∧
    rowAfter 0 sampleDrw 2 = some [1, 0, 0, 1, 0, 0, 0, 0] ∧
    rowAfter 0 sampleDrw 3 = some [1, 0, 0, 1, 0, 0, 0, 0] ∧
    rowAfter 0 sampleDrw 4 = some [1, 1, 1, 1, 0, 0, 0, 0] ∧
    rowAfter 0 sampleDrw 5 = some [0, 0, 0, 0, 0, 0, 0, 0] ∧
    vAfter 0 sampleDrw 0xF = some 0 ∧ drawAfter 0 sampleDrw = some 1 :=
  ⟨drw_reference 0 sampleDrw 0 0 5 (by decide) (by decide) (by decide) (by decide)
      (by decide) (by decide)
      (fun row col hr hc => by
        have h0 : sampleDrw.V 0 = 0 := by decide
        rw [h0]; unfold pixelIndex; omega)
      (fun j => by rw [sampleDrw_gfx j]; decide),
   by decide, by decide, by decide, by decide, by decide, by decide, by decide, by decide⟩

/-! ## C8: drawing twice -/

theorem xor_xor_cancel (g b : Nat) : (g ^^^ b) ^^^ b = g := by
  rw [Nat.xor_assoc, Nat.xor_self, Nat.xor_zero]

theorem spriteBit_le (s : Machine) (row col : Nat) : spriteBit s row col < 2 := by
  unfold spriteBit; omega

/-- C8: for every state whose framebuffer cells are bytes, with all touched
indices below 2048 and the sprite inside memory, two successive cycles
executing the same DRW Vx,Vy,n with the same `Vx` and `Vy` leave every
framebuffer cell equal to its value before the first draw, and the second
draw leaves `V[0xF] = 1` whenever the first draw turned a pixel from 0 to 1. -/
theorem drw_twice (t1 t2 : Nat) (s : Machine) (rx ry rn : Nat) (hx : rx < 16) (hy : ry < 16)
    (hn : rn < 16) (hpc : s.pc + 3 < MEMORY_SIZE)
    (hw : word s = 0xD000 + rx * 256 + ry * 16 + rn)
    (hw2 : word { s with pc := s.pc + 2 } = 0xD000 + rx * 256 + ry * 16 + rn)
    (hidx : s.idx + rn ≤ 4096)
    (hk : ∀ row col, row < rn → col < 8 → pixelIndex (s.V rx) (s.V ry) row col < 2048)
    (hg : ∀ j, s.gfx j < 256)
    (hsame : ∀ r1, fde_cycle t1 s = .ok r1 → r1.1.V rx = s.V rx ∧ r1.1.V ry = s.V ry) :
    ∃ r1 r2, fde_cycle t1 s = .ok r1 ∧ fde_cycle t2 r1.1 = .ok r2 ∧
      (∀ j, r2.1.gfx j = s.gfx j) ∧
      ((∃ j, s.gfx j = 0 ∧ r1.1.gfx j = 1) → r2.1.V F = 1) := by
  unfold MEMORY_SIZE at hpc
  obtain ⟨r1, e1, ⟨im, ii, ig, io, -, -⟩, -, p1⟩ :=
    drw_cycle t1 s rx ry rn hx hy hn (by unfold MEMORY_SIZE; omega) hw hidx hk hg
  obtain ⟨vx, vy⟩ := hsame r1 e1
  have p1b : r1.1.pc = s.pc + 2 := by rw [p1]; unfold u16; omega
  have hbit : ∀ row col, spriteBit r1.1 row col = spriteBit s row col := by
    intro row col; unfold spriteBit; rw [im, ii]
  have hw3 : word r1.1 = 0xD000 + rx * 256 + ry * 16 + rn := by
    rw [← hw2]; unfold word; rw [im, p1b]
  have hg1 : ∀ j, r1.1.gfx j < 256 := by
    intro j
    by_cases hj : ∃ row col, row < rn ∧ col < 8 ∧ j = pixelIndex (s.V rx) (s.V ry) row col
    · obtain ⟨row, col, hrow, hcol, rfl⟩ := hj
      rw [ig row col hrow hcol]
      exact Nat.xor_lt_two_pow (n := 8) (hg _)
        (Nat.lt_trans (spriteBit_le s row col) (by decide))
    · rw [io j (fun row col hrow hcol heq => hj ⟨row, col, hrow, hcol, heq⟩)]
      exact hg j
  obtain ⟨r2, e2, ⟨-, -, ig2, io2, ih2, -⟩, -, -⟩ :=
    drw_cycle t2 r1.1 rx ry rn hx hy hn (by unfold MEMORY_SIZE; omega) hw3
      (by rw [ii]; exact hidx) (by rw [vx, vy]; exact hk) hg1
  rw [vx, vy] at ig2 io2 ih2
  refine ⟨r1, r2, e1, e2, ?_, ?_⟩
  · intro j
    by_cases hj : ∃ row col, row < rn ∧ col < 8 ∧ j = pixelIndex (s.V rx) (s.V ry) row col
    · obtain ⟨row, col, hrow, hcol, rfl⟩ := hj
      rw [ig2 row col hrow hcol, ig row col hrow hcol, hbit, xor_xor_cancel]
    · have hj2 : ∀ row col, row < rn → col < 8 → j ≠ pixelIndex (s.V rx) (s.V ry) row col :=
        fun row col hrow hcol heq => hj ⟨row, col, hrow, hcol, heq⟩
      rw [io2 j hj2, io j hj2]
  · rintro ⟨j, hj0, hj1⟩
    by_cases hj : ∃ row col, row < rn ∧ col < 8 ∧ j = pixelIndex (s.V rx) (s.V ry) row col
    · obtain ⟨row, col, hrow, hcol, rfl⟩ := hj
      refine ih2 ⟨row, col, hrow, hcol, ?_, hj1⟩
      have h := ig row col hrow hcol
      rw [hj0, hj1, Nat.zero_xor] at h
      rw [hbit]; exact h.symm
    · have hj2 : ∀ row col, row < rn → col < 8 → j ≠ pixelIndex (s.V rx) (s.V ry) row col :=
        fun row col hrow hcol heq => hj ⟨row, col, hrow, hcol, heq⟩
      have h := io j hj2
      omega

theorem sampleDrwTwice_gfx (j : Nat) : sampleDrwTwice.gfx j = 0 := by
  show (if j < GFX_SIZE then 0 else 0) = 0
  by_cases h : j < GFX_SIZE
  · rw [if_pos h]
  · rw [if_neg h]

theorem drw_twice_witness :
    ∃ r1 r2, fde_cycle 0 sampleDrwTwice = .ok r1 ∧ fde_cycle 0 r1.1 = .ok r2 ∧
      (∀ j, r2.1.gfx j = sampleDrwTwice.gfx j) ∧
      ((∃ j, sampleDrwTwice.gfx j = 0 ∧ r1.1.gfx j = 1) → r2.1.V F = 1) :=
  drw_twice 0 0 sampleDrwTwice 0 0 5 (by decide) (by decide) (by decide) (by decide)
    (by decide) (by decide) (by decide)
    (fun row col hr hc => by
      have h0 : sampleDrwTwice.V 0 = 0 := by decide
      rw [h0]; unfold pixelIndex; omega)
    (fun j => by rw [sampleDrwTwice_gfx j]; decide)
    (fun r1 h1 => by
      have hv : vAfter 0 sampleDrwTwice 0 = some 0 := by decide
      unfold vAfter at hv
      rw [h1] at hv
      have h0 : sampleDrwTwice.V 0 = 0 := by decide
      rw [h0]
      exact ⟨Option.some.inj hv, Option.some.inj hv⟩)

/-! ## Timer tick in closed form -/

theorem tick_dt (s : Machine) :
    (tick s).1.dt = if s.dt > 0 then u8i ((s.dt : Int) - 1) else s.dt := by
  unfold tick; dsimp only; split_ifs <;> rfl

theorem tick_st (s : Machine) :
    (tick s).1.st = if s.st > 0 then u8i ((s.st : Int) - 1) else s.st := by
  unfold tick; dsimp only; split_ifs <;> rfl

theorem tick_beep (s : Machine) :
    (tick s).2 = (decide (s.st > 0) && decide (u8i ((s.st : Int) - 1) = 0)) := by
  unfold tick; dsimp only; split_ifs <;> simp_all

/-! ## C12: CLS -/

/-- C12: for every state, a cycle executing CLS (opcode 00E0) yields a state
in which all 2048 framebuffer cells are 0 and the draw flag is 1; registers,
memory, stack, `sp` and `I` are unchanged, `pc` is advanced by 2 and the
timers have ticked. -/
theorem cls_clears (t : Nat) (s : Machine) (hpc : s.pc + 1 < MEMORY_SIZE)
    (hw : word s = 0x00E0) :
    ∃ r, fde_cycle t s = .ok r ∧
      (∀ i, i < 2048 → r.1.gfx i = 0) ∧ r.1.draw = 1 ∧
      r.1.V = s.V ∧ r.1.memory = s.memory ∧ r.1.stack = s.stack ∧
      r.1.sp = s.sp ∧ r.1.idx = s.idx ∧ r.1.pc = s.pc + 2 ∧
      r.1.dt = (tick s).1.dt ∧ r.1.st = (tick s).1.st := by
  rw [fde_cycle_of_word t s _ hpc hw, exec_sys _ _ (by dsimp only; decide)]
  unfold sys
  rw [if_pos rfl]
  unfold MEMORY_SIZE at hpc
  refine ⟨_, rfl, ?_, ?_, ?_, ?_, ?_, ?_, ?_, ?_, ?_, ?_⟩
  · intro i hi
    rw [tick_gfx]
    dsimp only
    rw [if_pos hi]
  · rw [tick_draw]
  · rw [tick_V]
  · rw [tick_memory]
  · rw [tick_stack]
  · rw [tick_sp]
  · rw [tick_idx]
  · rw [tick_pc]; show u16 (s.pc + 2) = s.pc + 2; unfold u16; omega
  · rw [tick_dt, tick_dt]
  · rw [tick_st, tick_st]

theorem cls_clears_witness :
    ∃ r, fde_cycle 0 sampleCls = .ok r ∧
      (∀ i, i < 2048 → r.1.gfx i = 0) ∧ r.1.draw = 1 ∧
      r.1.V = sampleCls.V ∧ r.1.memory = sampleCls.memory ∧ r.1.stack = sampleCls.stack ∧
      r.1.sp = sampleCls.sp ∧ r.1.idx = sampleCls.idx ∧ r.1.pc = sampleCls.pc + 2 ∧
      r.1.dt = (tick sampleCls).1.dt ∧ r.1.st = (tick sampleCls).1.st :=
  cls_clears 0 sampleCls (by decide) (by decide)

/-! ## C18: the decoder -/

/-- C18: for every 16-bit word `w`, `x(w)`, `y(w)`, `n(w)`, `kk(w)` and
`nnn = w & 0xFFF` are bits 8-11, 4-7, 0-3, 0-7 and 0-11 of `w`, within their
ranges, with `kk = 16 y + n`, `nnn = 256 x + kk` and `w = (w & 0xF000) + nnn`;
the fetched word is a 16-bit value, big-endian in `memory[pc]`,
`memory[pc+1]`; the decode writes `opcode` and `nnn` and nothing else, and
the fetch is the decode followed by the advance of `pc`. -/
theorem decoder_fields (w : Nat) (hw : w < 65536) (s : Machine)
    (hpc : s.pc + 1 < MEMORY_SIZE) :
    x w = w / 256 % 16 ∧ y w = w / 16 % 16 ∧ n w = w % 16 ∧ kk w = w % 256 ∧
    w &&& 0xFFF = w % 4096 ∧
    x w < 16 ∧ y w < 16 ∧ n w < 16 ∧ kk w < 256 ∧ w &&& 0xFFF < 4096 ∧
    kk w = 16 * y w + n w ∧ w &&& 0xFFF = 256 * x w + kk w ∧
    w = (w &&& 0xF000) + (w &&& 0xFFF) ∧
    word s < 65536 ∧
    (s.memory s.pc < 256 → s.memory (s.pc + 1) < 256 →
      word s = 256 * s.memory s.pc + s.memory (s.pc + 1)) ∧
    fetch s = .ok { decode s with pc := u16 (s.pc + 2) } ∧
    decode s = { s with opcode := word s, nnn := word s &&& 0xFFF } ∧
    (decode s).pc = s.pc ∧ (decode s).idx = s.idx ∧ (decode s).stack = s.stack ∧
    (decode s).dt = s.dt ∧ (decode s).st = s.st ∧ (decode s).sp = s.sp ∧
    (decode s).draw = s.draw ∧ (decode s).V = s.V ∧ (decode s).memory = s.memory ∧
    (decode s).keys = s.keys ∧ (decode s).gfx = s.gfx := by
  rw [x_eq_div, y_eq_div, n_eq_mod, kk_eq_mod, and_FFF_eq_mod, and_F000_eq]
  refine ⟨rfl, rfl, rfl, rfl, rfl, ?_, ?_, ?_, ?_, ?_, ?_, ?_, ?_, ?_, ?_, ?_,
    rfl, rfl, rfl, rfl, rfl, rfl, rfl, rfl, rfl, rfl, rfl, rfl⟩
  · omega
  · omega
  · omega
  · omega
  · omega
  · omega
  · omega
  · omega
  · unfold word u16; omega
  · intro h0 h1
    unfold word u16
    rw [Nat.shiftLeft_eq, Nat.mul_comm,
      ← Nat.mul_add_lt_is_or (show s.memory (s.pc + 1) < 2 ^ 8 from h1)]
    omega
  · unfold fetch
    rw [if_pos hpc]
    rfl

theorem decoder_fields_witness :
    x 0x6A05 = 0x6A05 / 256 % 16 ∧ y 0x6A05 = 0x6A05 / 16 % 16 ∧ n 0x6A05 = 0x6A05 % 16 ∧
    kk 0x6A05 = 0x6A05 % 256 ∧ 0x6A05 &&& 0xFFF = 0x6A05 % 4096 ∧
    x 0x6A05 < 16 ∧ y 0x6A05 < 16 ∧ n 0x6A05 < 16 ∧ kk 0x6A05 < 256 ∧
    0x6A05 &&& 0xFFF < 4096 ∧
    kk 0x6A05 = 16 * y 0x6A05 + n 0x6A05 ∧ 0x6A05 &&& 0xFFF = 256 * x 0x6A05 + kk 0x6A05 ∧
    0x6A05 = (0x6A05 &&& 0xF000) + (0x6A05 &&& 0xFFF) ∧
    word sampleWord < 65536 ∧
    (sampleWord.memory sampleWord.pc < 256 → sampleWord.memory (sampleWord.pc + 1) < 256 →
      word sampleWord = 256 * sampleWord.memory sampleWord.pc +
        sampleWord.memory (sampleWord.pc + 1)) ∧
    fetch sampleWord = .ok { decode sampleWord with pc := u16 (sampleWord.pc + 2) } ∧
    decode sampleWord = { sampleWord with opcode := word sampleWord,
                                          nnn := word sampleWord &&& 0xFFF } ∧
    (decode sampleWord).pc = sampleWord.pc ∧ (decode sampleWord).idx = sampleWord.idx ∧
    (decode sampleWord).stack = sampleWord.stack ∧
    (decode sampleWord).dt = sampleWord.dt ∧ (decode sampleWord).st = sampleWord.st ∧
    (decode sampleWord).sp = sampleWord.sp ∧
    (decode sampleWord).draw = sampleWord.draw ∧ (decode sampleWord).V = sampleWord.V ∧
    (decode sampleWord).memory = sampleWord.memory ∧
    (decode sampleWord).keys = sampleWord.keys ∧ (decode sampleWord).gfx = sampleWord.gfx :=
  decoder_fields 0x6A05 (by decide) sampleWord (by decide)

/-! ## C17: RND Vx,kk -/

theorem xorshift32_eq_ref (t : Nat) : xorshift32 t = xorshiftRef t := by
  unfold xorshift32 xorshiftRef u32
  simp only [List.foldl_cons, List.foldl_nil, Nat.shiftLeft_eq, Nat.shiftRight_eq_div_pow]
  rfl

theorem xorshift32_lt (t : Nat) (ht : t < 2 ^ 32) : xorshift32 t < 2 ^ 32 := by
  unfold xorshift32 u32
  dsimp only
  have h1 : t ^^^ t <<< 13 % 4294967296 < 2 ^ 32 :=
    Nat.xor_lt_two_pow ht (Nat.mod_lt _ (by decide))
  have h2 : (t ^^^ t <<< 13 % 4294967296) ^^^ (t ^^^ t <<< 13 % 4294967296) >>> 17 < 2 ^ 32 :=
    Nat.xor_lt_two_pow h1 (Nat.lt_of_le_of_lt
      (by rw [Nat.shiftRight_eq_div_pow]; exact Nat.div_le_self _ _) h1)
  exact Nat.xor_lt_two_pow h2 (Nat.mod_lt _ (by decide))

theorem exec_rnd (t : Nat) (s : Machine) (h : s.opcode &&& 0xF000 = 0xC000) :
    exec t s = .ok (setV s (x s.opcode) (u8 ((xorshift32 (u32 t) % 256) &&& kk s.opcode))) := by
  simp [exec, h]

/-- One cycle executing RND Vx,kk with the 32-bit clock value `t`. -/
theorem rnd_step (t : Nat) (s : Machine) (rx kv : Nat) (ht : t < 2 ^ 32) (hx : rx < 16)
    (hk : kv < 256) (hpc : s.pc + 1 < MEMORY_SIZE) (hw : word s = 0xC000 + rx * 256 + kv) :
    ∃ r, fde_cycle t s = .ok r ∧ r.1.V rx = (xorshift32 t % 256) &&& kv := by
  obtain ⟨h1, h2, -, -, h5, -⟩ :=
    decode_fields 0xC rx (kv / 16) (kv % 16) (by omega) hx (by omega) (by omega)
  have hw2 : word s = 0xC * 4096 + rx * 256 + kv / 16 * 16 + kv % 16 := by omega
  rw [fde_cycle_of_word t s _ hpc hw2]
  generalize 0xC * 4096 + rx * 256 + kv / 16 * 16 + kv % 16 = w at h1 h2 h5
  rw [exec_rnd _ _ h1]
  refine ⟨_, rfl, ?_⟩
  rw [tick_V]
  dsimp only
  have h5b : kk w = kv := by omega
  have ht2 : u32 t = t := by unfold u32; omega
  rw [h2, h5b, ht2]
  show store s.V rx _ rx = _
  unfold store u8
  rw [if_pos rfl]
  exact Nat.mod_eq_of_lt (Nat.lt_of_le_of_lt Nat.and_le_right hk)

/-- C17: for every state, register index `x`, immediate `kk` and 32-bit
clock value `t`, a cycle executing RND Vx,kk (Cxkk) yields
`V[x] = (xorshift32(t) mod 256) AND kk`, where `xorshift32(t)` is the 32-bit
value of the reference definition; every bit clear in `kk` is clear in
`V[x]`; and a second state executing RND with the same `t` and `kk` (any
register) gets the same value. -/
theorem rnd_value (t : Nat) (s s2 : Machine) (rx rx2 kv : Nat) (ht : t < 2 ^ 32)
    (hx : rx < 16) (hx2 : rx2 < 16) (hk : kv < 256)
    (hpc : s.pc + 1 < MEMORY_SIZE) (hw : word s = 0xC000 + rx * 256 + kv)
    (hpc2 : s2.pc + 1 < MEMORY_SIZE) (hw2 : word s2 = 0xC000 + rx2 * 256 + kv) :
    ∃ r r2, fde_cycle t s = .ok r ∧ fde_cycle t s2 = .ok r2 ∧
      r.1.V rx = (xorshift32 t % 256) &&& kv ∧
      xorshift32 t = xorshiftRef t ∧ xorshift32 t < 2 ^ 32 ∧
      (∀ i, kv.testBit i = false → (r.1.V rx).testBit i = false) ∧
      r2.1.V rx2 = r.1.V rx := by
  obtain ⟨r, e, v⟩ := rnd_step t s rx kv ht hx hk hpc hw
  obtain ⟨r2, e2, v2⟩ := rnd_step t s2 rx2 kv ht hx2 hk hpc2 hw2
  refine ⟨r, r2, e, e2, v, xorshift32_eq_ref t, xorshift32_lt t ht, ?_, by rw [v, v2]⟩
  intro i hi
  rw [v, Nat.testBit_and, hi, Bool.and_false]

theorem rnd_value_witness :
    ∃ r r2, fde_cycle 1700000000 sampleRnd = .ok r ∧ fde_cycle 1700000000 sampleRnd2 = .ok r2 ∧
      r.1.V 1 = (xorshift32 1700000000 % 256) &&& 0x0F ∧
      xorshift32 1700000000 = xorshiftRef 1700000000 ∧ xorshift32 1700000000 < 2 ^ 32 ∧
      (∀ i, (0x0F : Nat).testBit i = false → (r.1.V 1).testBit i = false) ∧
      r2.1.V 2 = r.1.V 1 :=
  rnd_value 1700000000 sampleRnd sampleRnd2 1 2 0x0F (by decide) (by decide) (by decide)
    (by decide) (by decide) (by decide) (by decide) (by decide)

/-! ## C13: `init_regs` -/

/-- What `init_regs` establishes from any prior state, what it leaves as it
was, and the state it yields from zeroed static storage. -/
theorem init_regs_resets (s : Machine) :
    (init_regs s).pc = 0x200 ∧ (init_regs s).idx = 0 ∧ (init_regs s).sp = 0 ∧
    (init_regs s).dt = 0 ∧ (init_regs s).opcode = 0 ∧ (init_regs s).nnn = 0 ∧
    (∀ i, i < 80 → (init_regs s).memory i = chip8_fonts.getD i 0) ∧
    (∀ i, 80 ≤ i → i < 4096 → (init_regs s).memory i = 0) ∧
    (∀ i, i < 16 → (init_regs s).V i = 0) ∧
    (∀ i, i < 2048 → (init_regs s).gfx i = 0) ∧
    (∀ i, i < 7 → (init_regs s).stack i = 0) ∧
    (∀ i, 8 ≤ i → (init_regs s).stack i = s.stack i) ∧
    (init_regs s).st = s.st ∧ (init_regs s).draw = s.draw ∧ (init_regs s).keys = s.keys ∧
    (init_regs boot).st = 0 ∧ (∀ i, (init_regs boot).stack i = 0) := by
  refine ⟨rfl, rfl, rfl, rfl, rfl, rfl, ?_, ?_, ?_, ?_, ?_, ?_, rfl, rfl, rfl, rfl, ?_⟩
  · intro i hi
    show (if i < 80 then chip8_fonts.getD i 0 else _) = _
    rw [if_pos hi]
  · intro i h1 h2
    show (if i < 80 then _ else if i < MEMORY_SIZE then 0 else _) = 0
    rw [if_neg (by omega), if_pos (show i < MEMORY_SIZE from h2)]
  · intro i hi
    show (if i < V_SIZE then 0 else _) = 0
    rw [if_pos (show i < V_SIZE from hi)]
  · intro i hi
    show (if i < GFX_SIZE then 0 else _) = 0
    rw [if_pos (show i < GFX_SIZE from hi)]
  · intro i hi
    show (if i < 7 then 0 else _) = 0
    rw [if_pos hi]
  · intro i hi
    show (if i < 7 then 0 else if i = 7 then _ else s.stack i) = _
    rw [if_neg (by omega), if_neg (by omega)]
  · intro i
    show (if i < 7 then 0 else if i = 7 then 0 / 256 * 256 else 0) = 0
    by_cases h1 : i < 7
    · rw [if_pos h1]
    · rw [if_neg h1]
      by_cases h2 : i = 7
      · rw [if_pos h2]
      · rw [if_neg h2]

theorem misc_font (s : Machine) (h : kk s.opcode = 0x29) :
    misc s = .ok { s with idx := u16 (s.V (x s.opcode) * 5) } := by
  simp [misc, h]

/-- C14: in a state whose memory holds the font table at `0..79` (as after
`init_regs`), for every hex digit `d` and register `x` with `V[x] = d`, a
cycle executing LD F,Vx (Fx29) yields `I = 5 d`, the five bytes
`memory[I..I+4]` are the five rows of glyph `d` in the font table, and `I`
is at most 75. -/
theorem ld_f_vx (t : Nat) (s : Machine) (rx d : Nat) (hx : rx < 16) (hd : d < 16)
    (hv : s.V rx = d) (hfont : ∀ i, i < 80 → s.memory i = chip8_fonts.getD i 0)
    (hpc : s.pc + 1 < MEMORY_SIZE) (hw : word s = 0xF029 + rx * 256) :
    ∃ r, fde_cycle t s = .ok r ∧ r.1.idx = 5 * d ∧
      (List.range 5).map (fun j => r.1.memory (r.1.idx + j)) = glyph d ∧
      r.1.idx ≤ 75 := by
  obtain ⟨h1, h2, -, -, h5, -⟩ := decode_fields 0xF rx 2 9 (by omega) hx (by omega) (by omega)
  have hw2 : word s = 0xF * 4096 + rx * 256 + 2 * 16 + 9 := by omega
  rw [fde_cycle_of_word t s _ hpc hw2]
  generalize 0xF * 4096 + rx * 256 + 2 * 16 + 9 = w at h1 h2 h5
  rw [exec_misc _ _ h1, misc_font _ h5]
  dsimp only
  rw [h2, hv]
  have hidx : u16 (d * 5) = 5 * d := by unfold u16; omega
  refine ⟨_, rfl, ?_, ?_, ?_⟩
  · rw [tick_idx]; exact hidx
  · rw [tick_idx, tick_memory]
    dsimp only
    rw [hidx]
    have hr : List.range 5 = [0, 1, 2, 3, 4] := by decide
    rw [hr]
    simp only [List.map_cons, List.map_nil]
    rw [hfont (5 * d + 0) (by omega), hfont (5 * d + 1) (by omega),
      hfont (5 * d + 2) (by omega), hfont (5 * d + 3) (by omega),
      hfont (5 * d + 4) (by omega)]
    interval_cases d <;> rfl
  · rw [tick_idx]; dsimp only; rw [hidx]; omega

theorem sampleGlyph_font (i : Nat) (hi : i < 80) :
    sampleGlyph.memory i = chip8_fonts.getD i 0 := by
  show (if 512 ≤ i ∧ i < 512 + 2 then _ else if i < 80 then chip8_fonts.getD i 0 else _) = _
  rw [if_neg (by omega), if_pos hi]

theorem ld_f_vx_witness :
    ∃ r, fde_cycle 0 sampleGlyph = .ok r ∧ r.1.idx = 5 * 0xA ∧
      (List.range 5).map (fun j => r.1.memory (r.1.idx + j)) = glyph 0xA ∧
      r.1.idx ≤ 75 :=
  ld_f_vx 0 sampleGlyph 3 0xA (by decide) (by decide) (by decide) sampleGlyph_font
    (by decide) (by decide)

/-! ## C11: LD [I],Vx and LD Vx,[I] -/

theorem misc_store (s : Machine) (h : kk s.opcode = 0x55) :
    misc s = (List.range (x s.opcode + 1)).foldlM
      (fun a i => setMem a (a.idx + i) (a.V i)) s := by
  simp [misc, h]

theorem misc_load (s : Machine) (h : kk s.opcode = 0x65) :
    misc s = (List.range (x s.opcode + 1)).foldlM
      (fun a i => if a.idx + i < MEMORY_SIZE then .ok (setV a i (a.memory (a.idx + i)))
                  else .error .outOfBounds) s := by
  simp [misc, h]

/-- The loop of LD [I],Vx over `c` registers. -/
theorem storeLoop_ok (s : Machine) (c : Nat) (h : s.idx + c ≤ MEMORY_SIZE) :
    ∃ s2, (List.range c).foldlM (fun a i => setMem a (a.idx + i) (a.V i)) s = .ok s2 ∧
      s2.V = s.V ∧ s2.idx = s.idx ∧
      (∀ i, i < c → s2.memory (s.idx + i) = s.V i) ∧
      (∀ a, (a < s.idx ∨ s.idx + c ≤ a) → s2.memory a = s.memory a) := by
  refine foldlM_range_inv _
    (fun k a => a.V = s.V ∧ a.idx = s.idx ∧
      (∀ i, i < k → a.memory (s.idx + i) = s.V i) ∧
      (∀ b, (b < s.idx ∨ s.idx + k ≤ b) → a.memory b = s.memory b)) c s ?_ ?_
  · exact ⟨rfl, rfl, fun i hi => by omega, fun _ _ => rfl⟩
  · intro k a hk ⟨hV, hI, hm, ho⟩
    have hlt : a.idx + k < MEMORY_SIZE := by rw [hI]; omega
    refine ⟨{ a with memory := store a.memory (a.idx + k) (a.V k) }, ?_, hV, hI, ?_, ?_⟩
    · unfold setMem; rw [if_pos hlt]
    · intro i hi
      show store a.memory (a.idx + k) (a.V k) (s.idx + i) = s.V i
      unfold store
      by_cases hik : i = k
      · subst hik; rw [hI, if_pos rfl, hV]
      · rw [if_neg (by rw [hI]; omega)]; exact hm i (by omega)
    · intro b hb
      show store a.memory (a.idx + k) (a.V k) b = s.memory b
      unfold store
      rw [if_neg (by rw [hI]; omega)]
      exact ho b (by omega)

/-- The loop of LD Vx,[I] over `c` registers. -/
theorem loadLoop_ok (s : Machine) (c : Nat) (h : s.idx + c ≤ MEMORY_SIZE) :
    ∃ s2, (List.range c).foldlM
        (fun (a : Machine) (i : Nat) =>
          if a.idx + i < MEMORY_SIZE then Except.ok (setV a i (a.memory (a.idx + i)))
          else Except.error Fault.outOfBounds) s = Except.ok s2 ∧
      s2.memory = s.memory ∧ s2.idx = s.idx ∧
      (∀ i, i < c → s2.V i = s.memory (s.idx + i)) ∧
      (∀ i, c ≤ i → s2.V i = s.V i) := by
  refine foldlM_range_inv _
    (fun k a => a.memory = s.memory ∧ a.idx = s.idx ∧
      (∀ i, i < k → a.V i = s.memory (s.idx + i)) ∧
      (∀ i, k ≤ i → a.V i = s.V i)) c s ?_ ?_
  · exact ⟨rfl, rfl, fun i hi => by omega, fun _ _ => rfl⟩
  · intro k a hk ⟨hM, hI, hv, ho⟩
    have hlt : a.idx + k < MEMORY_SIZE := by rw [hI]; omega
    refine ⟨setV a k (a.memory (a.idx + k)), ?_, hM, hI, ?_, ?_⟩
    · rw [if_pos hlt]
    · intro i hi
      show store a.V k (a.memory (a.idx + k)) i = s.memory (s.idx + i)
      unfold store
      by_cases hik : i = k
      · subst hik; rw [if_pos rfl, hM, hI]
      · rw [if_neg hik]; exact hv i (by omega)
    · intro i hi
      show store a.V k (a.memory (a.idx + k)) i = s.V i
      unfold store
      rw [if_neg (by omega)]
      exact ho i (by omega)

/-- One cycle executing LD [I],Vx. -/
theorem store_step (t : Nat) (s : Machine) (rx : Nat) (hx : rx < 16) (hi : s.idx + rx ≤ 4095)
    (hpc : s.pc + 1 < MEMORY_SIZE) (hw : word s = 0xF055 + rx * 256) :
    ∃ r, fde_cycle t s = .ok r ∧
      (∀ i, i ≤ rx → r.1.memory (s.idx + i) = s.V i) ∧
      (∀ a, (a < s.idx ∨ s.idx + rx < a) → r.1.memory a = s.memory a) ∧
      r.1.V = s.V ∧ r.1.idx = s.idx := by
  obtain ⟨h1, h2, -, -, h5, -⟩ := decode_fields 0xF rx 5 5 (by omega) hx (by omega) (by omega)
  have hw2 : word s = 0xF * 4096 + rx * 256 + 5 * 16 + 5 := by omega
  rw [fde_cycle_of_word t s _ hpc hw2]
  generalize 0xF * 4096 + rx * 256 + 5 * 16 + 5 = w at h1 h2 h5
  rw [exec_misc _ _ h1, misc_store _ h5]
  dsimp only
  rw [h2]
  obtain ⟨s2, e, hV, hI, hm, ho⟩ :=
    storeLoop_ok { s with opcode := w, nnn := w &&& 0xFFF, pc := u16 (s.pc + 2) } (rx + 1)
      (by unfold MEMORY_SIZE; dsimp only; omega)
  rw [e]
  refine ⟨_, rfl, ?_, ?_, ?_, ?_⟩
  · intro i hi; rw [tick_memory]; exact hm i (by omega)
  · intro a ha; rw [tick_memory]; exact ho a (by dsimp only; omega)
  · rw [tick_V]; exact hV
  · rw [tick_idx]; exact hI

/-- One cycle executing LD Vx,[I]. -/
theorem load_step (t : Nat) (s : Machine) (rx : Nat) (hx : rx < 16) (hi : s.idx + rx ≤ 4095)
    (hpc : s.pc + 1 < MEMORY_SIZE) (hw : word s = 0xF065 + rx * 256) :
    ∃ r, fde_cycle t s = .ok r ∧
      (∀ i, i ≤ rx → r.1.V i = s.memory (s.idx + i)) ∧
      (∀ i, rx < i → r.1.V i = s.V i) ∧
      r.1.memory = s.memory ∧ r.1.idx = s.idx := by
  obtain ⟨h1, h2, -, -, h5, -⟩ := decode_fields 0xF rx 6 5 (by omega) hx (by omega) (by omega)
  have hw2 : word s = 0xF * 4096 + rx * 256 + 6 * 16 + 5 := by omega
  rw [fde_cycle_of_word t s _ hpc hw2]
  generalize 0xF * 4096 + rx * 256 + 6 * 16 + 5 = w at h1 h2 h5
  rw [exec_misc _ _ h1, misc_load _ h5]
  dsimp only
  rw [h2]
  obtain ⟨s2, e, hM, hI, hv, ho⟩ :=
    loadLoop_ok { s with opcode := w, nnn := w &&& 0xFFF, pc := u16 (s.pc + 2) } (rx + 1)
      (by unfold MEMORY_SIZE; dsimp only; omega)
  rw [e]
  refine ⟨_, rfl, ?_, ?_, ?_, ?_⟩
  · intro i hi; rw [tick_V]; exact hv i (by omega)
  · intro i hi; rw [tick_V]; exact ho i (by omega)
  · rw [tick_memory]; exact hM
  · rw [tick_idx]; exact hI

/-- C11: for every `x` in 0..15 and `I + x <= 4095`, a cycle executing
LD [I],Vx (Fx55) yields `memory[I + i] = V[i]` for every `i <= x` and changes
no other memory byte, no register and not `I`; a cycle executing LD Vx,[I]
(Fx65) in a state with the same `I` yields `V[i] = memory[I + i]` for every
`i <= x` and leaves `V[x+1..]`, memory and `I` unchanged; if the stored block
is intact in that state, the loaded `V[0..x]` are the values stored. -/
theorem store_load (t1 t2 : Nat) (s s2 : Machine) (rx : Nat) (hx : rx < 16)
    (hi : s.idx + rx ≤ 4095)
    (hpc : s.pc + 1 < MEMORY_SIZE) (hw : word s = 0xF055 + rx * 256)
    (hi2 : s2.idx = s.idx)
    (hpc2 : s2.pc + 1 < MEMORY_SIZE) (hw2 : word s2 = 0xF065 + rx * 256) :
    ∃ r1 r2, fde_cycle t1 s = .ok r1 ∧ fde_cycle t2 s2 = .ok r2 ∧
      (∀ i, i ≤ rx → r1.1.memory (s.idx + i) = s.V i) ∧
      (∀ a, (a < s.idx ∨ s.idx + rx < a) → r1.1.memory a = s.memory a) ∧
      r1.1.V = s.V ∧ r1.1.idx = s.idx ∧
      (∀ i, i ≤ rx → r2.1.V i = s2.memory (s2.idx + i)) ∧
      (∀ i, rx < i → r2.1.V i = s2.V i) ∧
      r2.1.memory = s2.memory ∧ r2.1.idx = s2.idx ∧
      ((∀ i, i ≤ rx → s2.memory (s.idx + i) = r1.1.memory (s.idx + i)) →
        ∀ i, i ≤ rx → r2.1.V i = s.V i) := by
  obtain ⟨r1, e1, a1, a2, a3, a4⟩ := store_step t1 s rx hx hi hpc hw
  obtain ⟨r2, e2, b1, b2, b3, b4⟩ := load_step t2 s2 rx hx (by rw [hi2]; exact hi) hpc2 hw2
  refine ⟨r1, r2, e1, e2, a1, a2, a3, a4, b1, b2, b3, b4, ?_⟩
  intro hint i hle
  rw [b1 i hle, hi2, hint i hle, a1 i hle]

theorem store_load_witness :
    (∃ r1 r2, fde_cycle 0 sampleStore = .ok r1 ∧ fde_cycle 0 sampleLoad = .ok r2 ∧
      (∀ i, i ≤ 3 → r1.1.memory (sampleStore.idx + i) = sampleStore.V i) ∧
      (∀ a, (a < sampleStore.idx ∨ sampleStore.idx + 3 < a) →
        r1.1.memory a = sampleStore.memory a) ∧
      r1.1.V = sampleStore.V ∧ r1.1.idx = sampleStore.idx ∧
      (∀ i, i ≤ 3 → r2.1.V i = sampleLoad.memory (sampleLoad.idx + i)) ∧
      (∀ i, 3 < i → r2.1.V i = sampleLoad.V i) ∧
      r2.1.memory = sampleLoad.memory ∧ r2.1.idx = sampleLoad.idx ∧
      ((∀ i, i ≤ 3 → sampleLoad.memory (sampleStore.idx + i) =
          r1.1.memory (sampleStore.idx + i)) →
        ∀ i, i ≤ 3 → r2.1.V i = sampleStore.V i)) ∧
    (List.range 4).map (fun i => (stateAfter 0 sampleStore).memory (0x300 + i))
      = [11, 22, 33, 44] ∧
    (List.range 6).map (fun i => (stateAfter 0 sampleLoad).V i) = [11, 22, 33, 44, 9, 9] :=
  ⟨store_load 0 0 sampleStore sampleLoad 3 (by decide) (by decide) (by decide) (by decide)
    (by decide) (by decide) (by decide), by decide, by decide⟩

/-! ## C15: LD Vx,K -/

/-- A loop without faults over `0..n-1` establishes its invariant for `n`. -/
theorem foldl_range_inv (f : Machine → Nat → Machine) (Inv : Nat → Machine → Prop)
    (n : Nat) (s : Machine) (h0 : Inv 0 s)
    (hstep : ∀ i a, i < n → Inv i a → Inv (i + 1) (f a i)) :
    Inv n ((List.range n).foldl f s) := by
  induction n with
  | zero => exact h0
  | succ m ih =>
    rw [List.range_succ, List.foldl_append]
    exact hstep m _ (by omega) (ih (fun i a hi => hstep i a (by omega)))

theorem misc_key (s : Machine) (h : kk s.opcode = 0xA) :
    misc s = .ok ((List.range 16).foldl
      (fun a i => if a.keys i ≠ 0 then setV a (x s.opcode) (u8 i) else a) s) := by
  simp [misc, h]

/-- The scan of LD Vx,K over the keys `0..c-1`. -/
theorem keyScan (s : Machine) (rx c : Nat) (hc : c ≤ 16) :
    ∀ a, a = (List.range c).foldl
        (fun a i => if a.keys i ≠ 0 then setV a rx (u8 i) else a) s →
      a.keys = s.keys ∧ a.pc = s.pc ∧ (∀ j, j ≠ rx → a.V j = s.V j) ∧
      (∀ i, i < c → s.keys i ≠ 0 → (∀ j, i < j → j < c → s.keys j = 0) → a.V rx = i) ∧
      ((∀ i, i < c → s.keys i = 0) → a.V rx = s.V rx) := by
  intro a ha
  subst ha
  refine foldl_range_inv _
    (fun k a => a.keys = s.keys ∧ a.pc = s.pc ∧ (∀ j, j ≠ rx → a.V j = s.V j) ∧
      (∀ i, i < k → s.keys i ≠ 0 → (∀ j, i < j → j < k → s.keys j = 0) → a.V rx = i) ∧
      ((∀ i, i < k → s.keys i = 0) → a.V rx = s.V rx)) c s ?_ ?_
  · exact ⟨rfl, rfl, fun _ _ => rfl, fun i hi => by omega, fun _ => rfl⟩
  · intro k a hk ⟨hK, hP, hO, hL, hN⟩
    by_cases hp : a.keys k ≠ 0
    · rw [if_pos hp]
      have hsk : s.keys k ≠ 0 := by rw [← hK]; exact hp
      refine ⟨hK, hP, ?_, ?_, ?_⟩
      · intro j hj
        show store a.V rx (u8 k) j = s.V j
        unfold store; rw [if_neg hj]; exact hO j hj
      · intro i hi hki hz
        have hik : i = k := by
          by_contra hne
          exact hsk (hz k (by omega) (by omega))
        show store a.V rx (u8 k) rx = i
        unfold store u8
        rw [if_pos rfl, hik]
        omega
      · intro hz
        exact absurd (hz k (by omega)) hsk
    · rw [if_neg hp]
      have hsk : s.keys k = 0 := by
        rw [← hK]; exact Classical.not_not.mp hp
      refine ⟨hK, hP, hO, ?_, ?_⟩
      · intro i hi hki hz
        have hik : i ≠ k := fun h => hki (h ▸ hsk)
        exact hL i (by omega) hki (fun j h1 h2 => hz j h1 (by omega))
      · intro hz
        exact hN (fun i hi => hz i (by omega))

/-- C15: for every state, a cycle executing LD Vx,K (Fx0A) yields `V[x]`
equal to the largest `i` in 0..15 with `keys[i]` non-zero; when no key is
pressed `V[x]` keeps its value; in both cases `pc` is advanced by 2, no other
register changes and no key state changes. -/
theorem ld_vx_k (t : Nat) (s : Machine) (rx : Nat) (hx : rx < 16)
    (hpc : s.pc + 1 < MEMORY_SIZE) (hw : word s = 0xF00A + rx * 256) :
    ∃ r, fde_cycle t s = .ok r ∧
      (∀ i, i < 16 → s.keys i ≠ 0 → (∀ j, i < j → j < 16 → s.keys j = 0) → r.1.V rx = i) ∧
      ((∀ i, i < 16 → s.keys i = 0) → r.1.V rx = s.V rx) ∧
      r.1.pc = s.pc + 2 ∧ (∀ j, j ≠ rx → r.1.V j = s.V j) ∧ r.1.keys = s.keys := by
  obtain ⟨h1, h2, -, -, h5, -⟩ := decode_fields 0xF rx 0 0xA (by omega) hx (by omega) (by omega)
  have hw2 : word s = 0xF * 4096 + rx * 256 + 0 * 16 + 0xA := by omega
  rw [fde_cycle_of_word t s _ hpc hw2]
  generalize 0xF * 4096 + rx * 256 + 0 * 16 + 0xA = w at h1 h2 h5
  rw [exec_misc _ _ h1, misc_key _ h5]
  dsimp only
  rw [h2]
  obtain ⟨hK, hP, hO, hL, hN⟩ :=
    keyScan { s with opcode := w, nnn := w &&& 0xFFF, pc := u16 (s.pc + 2) } rx 16
      (by omega) _ rfl
  unfold MEMORY_SIZE at hpc
  refine ⟨_, rfl, ?_, ?_, ?_, ?_, ?_⟩
  · intro i hi hk hz; rw [tick_V]; exact hL i hi hk hz
  · intro hz; rw [tick_V]; exact hN hz
  · rw [tick_pc, hP]; show u16 (s.pc + 2) = s.pc + 2; unfold u16; omega
  · intro j hj; rw [tick_V]; exact hO j hj
  · rw [tick_keys]; exact hK

theorem ld_vx_k_witness :
    (∃ r, fde_cycle 0 sampleKeys = .ok r ∧
      (∀ i, i < 16 → sampleKeys.keys i ≠ 0 →
        (∀ j, i < j → j < 16 → sampleKeys.keys j = 0) → r.1.V 4 = i) ∧
      ((∀ i, i < 16 → sampleKeys.keys i = 0) → r.1.V 4 = sampleKeys.V 4) ∧
      r.1.pc = sampleKeys.pc + 2 ∧ (∀ j, j ≠ 4 → r.1.V j = sampleKeys.V j) ∧
      r.1.keys = sampleKeys.keys) ∧
    vAfter 0 sampleKeys 4 = some 7 ∧ vAfter 0 sampleNoKey 4 = some 0xC ∧
    pcAfter 0 sampleNoKey = some 0x202 :=
  ⟨ld_vx_k 0 sampleKeys 4 (by decide) (by decide) (by decide), by decide, by decide,
   by decide⟩

/-! ## More frames -/

/-- Outside CLS, the case `0x0000` writes `sp` and `pc` only. -/
theorem sys_obs {β : Type} (p : Machine → β)
    (hp : ∀ s sp2 pc2, p { s with sp := sp2, pc := pc2 } = p s)
    (s s2 : Machine) (hc : s.opcode ≠ 0xE0) (h : sys s = .ok s2) : p s2 = p s := by
  unfold sys at h
  rw [if_neg hc] at h
  rcases ite_ok_or _ _ _ _ h with ⟨-, h⟩ | ⟨-, h⟩
  · dsimp only at h
    rcases ite_ok_or _ _ _ _ h with ⟨-, h⟩ | ⟨-, h⟩
    · have h := Except.ok.inj h; subst h; exact hp s _ _
    · cases h
  · have h := Except.ok.inj h; subst h; rfl

/-- CLS writes the framebuffer and `draw` only. -/
theorem cls_obs {β : Type} (p : Machine → β)
    (hp : ∀ s g d, p { s with gfx := g, draw := d } = p s)
    (s s2 : Machine) (hc : s.opcode = 0xE0) (h : sys s = .ok s2) : p s2 = p s := by
  unfold sys at h
  rw [if_pos hc] at h
  have h := Except.ok.inj h; subst h; exact hp s _ _

/-- The case `0x2000` writes the stack, `sp` and `pc` only. -/
theorem call_obs {β : Type} (p : Machine → β)
    (hp : ∀ s st2 sp2 pc2, p { s with stack := st2, sp := sp2, pc := pc2 } = p s)
    (s s2 : Machine) (h : call s = .ok s2) : p s2 = p s := by
  unfold call at h
  rcases ite_ok_or _ _ _ _ h with ⟨-, h⟩ | ⟨-, h⟩
  · have h := Except.ok.inj h; subst h; exact hp s _ _ _
  · cases h

/-- Outside LD DT,Vx and LD ST,Vx, the case `0xF000` writes registers,
memory and `idx` only. -/
theorem misc_obs_core {β : Type} (p : Machine → β)
    (hp : ∀ s V2 m i, p { s with V := V2, memory := m, idx := i } = p s)
    (s s2 : Machine) (h15 : kk s.opcode ≠ 0x15) (h18 : kk s.opcode ≠ 0x18)
    (h : misc s = .ok s2) : p s2 = p s := by
  have hV : ∀ s V2, p { s with V := V2 } = p s := fun s V2 => hp s V2 s.memory s.idx
  have hm : ∀ s m, p { s with memory := m } = p s := fun s m => hp s s.V m s.idx
  unfold misc at h
  dsimp only at h
  rcases ite_ok_or _ _ _ _ h with ⟨-, h⟩ | ⟨-, h⟩
  · have h := Except.ok.inj h; subst h; exact hV _ _
  rcases ite_ok_or _ _ _ _ h with ⟨-, h⟩ | ⟨-, h⟩
  · have h := Except.ok.inj h; subst h
    exact foldl_inv (fun a => p a = p s) _
      (fun a i ha => ite_obs p _ _ _ s ((hV _ _).trans ha) ha) _ s rfl
  rcases ite_ok_or _ _ _ _ h with ⟨hc, -⟩ | ⟨-, h⟩
  · exact absurd hc h15
  rcases ite_ok_or _ _ _ _ h with ⟨hc, -⟩ | ⟨-, h⟩
  · exact absurd hc h18
  rcases ite_ok_or _ _ _ _ h with ⟨-, h⟩ | ⟨-, h⟩
  · have h := Except.ok.inj h; subst h; exact hp s s.V s.memory _
  rcases ite_ok_or _ _ _ _ h with ⟨-, h⟩ | ⟨-, h⟩
  · have h := Except.ok.inj h; subst h; exact hp s s.V s.memory _
  rcases ite_ok_or _ _ _ _ h with ⟨-, h⟩ | ⟨-, h⟩
  · cases h1 : setMem s s.idx (u8 (s.V (x s.opcode) / 100)) with
    | error e => rw [h1] at h; cases h
    | ok s1 =>
      rw [h1] at h
      cases h2 : setMem s1 (s1.idx + 1) (u8 (s1.V (x s.opcode) / 10 % 10)) with
      | error e =>
        have h3 := h
        simp only [bind, Except.bind] at h3
        rw [h2] at h3
        cases h3
      | ok s3 =>
        have h3 := h
        simp only [bind, Except.bind] at h3
        rw [h2] at h3
        exact (setMem_obs p hm _ _ _ _ h3).trans
          ((setMem_obs p hm _ _ _ _ h2).trans (setMem_obs p hm _ _ _ _ h1))
  rcases ite_ok_or _ _ _ _ h with ⟨-, h⟩ | ⟨-, h⟩
  · exact foldlM_inv (fun a => p a = p s) _
      (fun a i a2 ha hf => (setMem_obs p hm _ _ _ _ hf).trans ha) _ s s2 rfl h
  rcases ite_ok_or _ _ _ _ h with ⟨-, h⟩ | ⟨-, h⟩
  · refine foldlM_inv (fun a => p a = p s) _ (fun a i a2 ha hf => ?_) _ s s2 rfl h
    rcases ite_ok_or _ _ _ _ hf with ⟨-, hf⟩ | ⟨-, hf⟩
    · have hf := Except.ok.inj hf; subst hf; exact (hV _ _).trans ha
    · cases hf
  · cases h

/-- Outside the cases `0x0000`, `0x2000`, `0xD000` and `0xF000`, the
dispatcher writes `pc`, `idx` and registers only. -/
theorem exec_obs_core {β : Type} (p : Machine → β)
    (hp : ∀ s pc2 i V2, p { s with pc := pc2, idx := i, V := V2 } = p s)
    (t : Nat) (s s2 : Machine) (h : exec t s = .ok s2)
    (h0 : s.opcode &&& 0xF000 ≠ 0x0000) (h2 : s.opcode &&& 0xF000 ≠ 0x2000)
    (hD : s.opcode &&& 0xF000 ≠ 0xD000) (hF : s.opcode &&& 0xF000 ≠ 0xF000) :
    p s2 = p s := by
  have hV : ∀ s V2, p { s with V := V2 } = p s := fun s V2 => hp s s.pc s.idx V2
  have hpc : ∀ s pc2, p { s with pc := pc2 } = p s := fun s pc2 => hp s pc2 s.idx s.V
  unfold exec at h
  dsimp only at h
  rcases ite_ok_or _ _ _ _ h with ⟨hc, -⟩ | ⟨-, h⟩
  · exact absurd hc h0
  rcases ite_ok_or _ _ _ _ h with ⟨-, h⟩ | ⟨-, h⟩
  · have h := Except.ok.inj h; subst h; exact hpc _ _
  rcases ite_ok_or _ _ _ _ h with ⟨hc, -⟩ | ⟨-, h⟩
  · exact absurd hc h2
  rcases ite_ok_or _ _ _ _ h with ⟨-, h⟩ | ⟨-, h⟩
  · have h := Except.ok.inj h; subst h; exact ite_obs p _ _ _ s (hpc _ _) rfl
  rcases ite_ok_or _ _ _ _ h with ⟨-, h⟩ | ⟨-, h⟩
  · have h := Except.ok.inj h; subst h; exact ite_obs p _ _ _ s (hpc _ _) rfl
  rcases ite_ok_or _ _ _ _ h with ⟨-, h⟩ | ⟨-, h⟩
  · have h := Except.ok.inj h; subst h; exact ite_obs p _ _ _ s (hpc _ _) rfl
  rcases ite_ok_or _ _ _ _ h with ⟨-, h⟩ | ⟨-, h⟩
  · have h := Except.ok.inj h; subst h; exact hV _ _
  rcases ite_ok_or _ _ _ _ h with ⟨-, h⟩ | ⟨-, h⟩
  · have h := Except.ok.inj h; subst h; exact hV _ _
  rcases ite_ok_or _ _ _ _ h with ⟨-, h⟩ | ⟨-, h⟩
  · exact alu_obs p hV s s2 h
  rcases ite_ok_or _ _ _ _ h with ⟨-, h⟩ | ⟨-, h⟩
  · have h := Except.ok.inj h; subst h; exact ite_obs p _ _ _ s (hpc _ _) rfl
  rcases ite_ok_or _ _ _ _ h with ⟨-, h⟩ | ⟨-, h⟩
  · have h := Except.ok.inj h; subst h; exact hp s s.pc _ s.V
  rcases ite_ok_or _ _ _ _ h with ⟨-, h⟩ | ⟨-, h⟩
  · have h := Except.ok.inj h; subst h; exact hpc _ _
  rcases ite_ok_or _ _ _ _ h with ⟨-, h⟩ | ⟨-, h⟩
  · have h := Except.ok.inj h; subst h; exact hV _ _
  rcases ite_ok_or _ _ _ _ h with ⟨hc, -⟩ | ⟨-, h⟩
  · exact absurd hc hD
  rcases ite_ok_or _ _ _ _ h with ⟨-, h⟩ | ⟨-, h⟩
  · exact key_obs p hpc s s2 h
  rcases ite_ok_or _ _ _ _ h with ⟨hc, -⟩ | ⟨-, h⟩
  · exact absurd hc hF
  · cases h

/-- A successful DRW sets `draw`. -/
theorem drw_draw (s s2 : Machine) (h : drw s = .ok s2) : s2.draw = 1 := by
  unfold drw at h
  dsimp only at h
  cases hf : (List.range (n s.opcode)).foldlM
      (drwRow (s.V (x s.opcode)) (s.V (y s.opcode))) (setV s F 0) with
  | error e => rw [hf] at h; cases h
  | ok s3 =>
    rw [hf] at h
    have h := Except.ok.inj h; subst h
    rfl

theorem misc_ld_dt (s : Machine) (h : kk s.opcode = 0x15) :
    misc s = .ok { s with dt := s.V (x s.opcode) } := by
  simp [misc, h]

theorem misc_ld_st (s : Machine) (h : kk s.opcode = 0x18) :
    misc s = .ok { s with st := s.V (x s.opcode) } := by
  simp [misc, h]

/-- What the dispatcher does to the timers: LD DT,Vx and LD ST,Vx load a
register, everything else leaves them alone. -/
theorem exec_timers (t : Nat) (s s2 : Machine) (h : exec t s = .ok s2) :
    (s2.st = s.st ∨ s2.st = s.V (x s.opcode)) ∧
    (s2.dt = s.dt ∨ s2.dt = s.V (x s.opcode)) := by
  have key : (s2.st, s2.dt) = (s.st, s.dt) → (s2.st = s.st ∨ s2.st = s.V (x s.opcode)) ∧
      (s2.dt = s.dt ∨ s2.dt = s.V (x s.opcode)) := fun e =>
    ⟨Or.inl (congrArg Prod.fst e), Or.inl (congrArg Prod.snd e)⟩
  by_cases h0 : s.opcode &&& 0xF000 = 0x0000
  · rw [exec_sys t s h0] at h
    by_cases hc : s.opcode = 0xE0
    · exact key (cls_obs (fun m => (m.st, m.dt)) (fun _ _ _ => rfl) s s2 hc h)
    · exact key (sys_obs (fun m => (m.st, m.dt)) (fun _ _ _ => rfl) s s2 hc h)
  by_cases h2 : s.opcode &&& 0xF000 = 0x2000
  · rw [exec_call t s h2] at h
    exact key (call_obs (fun m => (m.st, m.dt)) (fun _ _ _ _ => rfl) s s2 h)
  by_cases hD : s.opcode &&& 0xF000 = 0xD000
  · rw [exec_drw t s hD] at h
    exact key (drw_obs (fun m => (m.st, m.dt)) (fun _ _ _ _ => rfl) s s2 h)
  by_cases hF : s.opcode &&& 0xF000 = 0xF000
  · rw [exec_misc t s hF] at h
    by_cases h15 : kk s.opcode = 0x15
    · rw [misc_ld_dt s h15] at h
      have h := Except.ok.inj h; subst h
      exact ⟨Or.inl rfl, Or.inr rfl⟩
    by_cases h18 : kk s.opcode = 0x18
    · rw [misc_ld_st s h18] at h
      have h := Except.ok.inj h; subst h
      exact ⟨Or.inr rfl, Or.inl rfl⟩
    exact key (misc_obs_core (fun m => (m.st, m.dt)) (fun _ _ _ _ => rfl) s s2 h15 h18 h)
  · exact key (exec_obs_core (fun m => (m.st, m.dt)) (fun _ _ _ _ => rfl) t s s2 h h0 h2 hD hF)

/-! ## C16: the timers and the beep -/

/-- The tick on byte-sized timers: the beep is signalled exactly when the
sound timer is 1, and each timer is decremented, stopping at 0. -/
theorem tick_bytes (s : Machine) (hst : s.st < 256) (hdt : s.dt < 256) :
    ((tick s).2 = true ↔ s.st = 1) ∧ (tick s).1.st = s.st - 1 ∧ (tick s).1.dt = s.dt - 1 := by
  rw [tick_beep, tick_st, tick_dt]
  refine ⟨?_, ?_, ?_⟩
  · by_cases h : s.st > 0
    · have e : u8i ((s.st : Int) - 1) = s.st - 1 := by unfold u8i; omega
      rw [e]
      simp only [h, decide_True, Bool.true_and, decide_eq_true_eq]
      omega
    · simp only [h, decide_False, Bool.false_and]
      constructor
      · intro hf; cases hf
      · intro h1; omega
  · by_cases h : s.st > 0
    · rw [if_pos h]; unfold u8i; omega
    · rw [if_neg h]; omega
  · by_cases h : s.dt > 0
    · rw [if_pos h]; unfold u8i; omega
    · rw [if_neg h]; omega

/-- C16: for every state whose timers and registers are bytes and every cycle
that yields a result, with `s2` the state after the instruction has
executed: the cycle signals the beep exactly when `s2.st = 1`; the sound
timer ends at `s2.st - 1` when `s2.st > 0` and at 0 when `s2.st = 0`, and the
delay timer ends at `s2.dt - 1` when `s2.dt > 0` and at 0 when `s2.dt = 0`. -/
theorem beep_edge (t : Nat) (s : Machine) (r : Machine × Bool) (hst : s.st < 256)
    (hdt : s.dt < 256) (hV : ∀ i, s.V i < 256) (h : fde_cycle t s = .ok r) :
    ∃ s2, exec t { s with opcode := word s, nnn := word s &&& 0xFFF, pc := u16 (s.pc + 2) }
        = .ok s2 ∧
      (r.2 = true ↔ s2.st = 1) ∧ r.1.st = s2.st - 1 ∧ r.1.dt = s2.dt - 1 ∧
      (s2.st = 0 → r.1.st = 0) ∧ (s2.dt = 0 → r.1.dt = 0) := by
  obtain ⟨-, s2, he, hr⟩ := fde_cycle_ok t s r h
  subst hr
  obtain ⟨h1, h2⟩ := exec_timers t _ s2 he
  have hst2 : s2.st < 256 := by
    rcases h1 with e | e
    · rw [e]; exact hst
    · rw [e]; exact hV _
  have hdt2 : s2.dt < 256 := by
    rcases h2 with e | e
    · rw [e]; exact hdt
    · rw [e]; exact hV _
  obtain ⟨b1, b2, b3⟩ := tick_bytes s2 hst2 hdt2
  exact ⟨s2, he, b1, b2, b3, fun e => by rw [b2, e], fun e => by rw [b3, e]⟩

theorem sampleBeep_V (i : Nat) : sampleBeep.V i < 256 := by
  show (if i = 1 then 1 else if i < V_SIZE then 0 else 0) < 256
  by_cases h1 : i = 1
  · rw [if_pos h1]; decide
  · rw [if_neg h1]
    by_cases h2 : i < V_SIZE
    · rw [if_pos h2]; decide
    · rw [if_neg h2]; decide

theorem beep_edge_witness :
    (∃ s2, exec 0 { sampleBeep with opcode := word sampleBeep,
                                    nnn := word sampleBeep &&& 0xFFF,
                                    pc := u16 (sampleBeep.pc + 2) } = .ok s2 ∧
      ((resultOf 0 sampleBeep).2 = true ↔ s2.st = 1) ∧
      (resultOf 0 sampleBeep).1.st = s2.st - 1 ∧
      (resultOf 0 sampleBeep).1.dt = s2.dt - 1 ∧
      (s2.st = 0 → (resultOf 0 sampleBeep).1.st = 0) ∧
      (s2.dt = 0 → (resultOf 0 sampleBeep).1.dt = 0)) ∧
    (resultOf 0 sampleBeep).2 = true ∧ (resultOf 0 sampleBeep).1.st = 0 ∧
    (resultOf 0 sampleBeep).1.dt = 0 ∧
    (resultOf 0 sampleNoBeep).2 = false ∧ (resultOf 0 sampleNoBeep).1.st = 1 ∧
    (resultOf 0 sampleNoBeep).1.dt = 6 :=
  ⟨beep_edge 0 sampleBeep (resultOf 0 sampleBeep) (by decide) (by decide) sampleBeep_V rfl,
   by decide, by decide, by decide, by decide, by decide, by decide⟩

/-! ## C19: the draw flag -/

/-- What the dispatcher does to the framebuffer and the draw flag: CLS and
DRW set `draw`, everything else leaves both alone. -/
theorem exec_gfx (t : Nat) (s s2 : Machine) (h : exec t s = .ok s2) :
    (s2.gfx = s.gfx ∧ s2.draw = s.draw) ∨
    (s2.draw = 1 ∧ (s.opcode = 0xE0 ∨ s.opcode &&& 0xF000 = 0xD000)) := by
  have key : (s2.gfx, s2.draw) = (s.gfx, s.draw) →
      (s2.gfx = s.gfx ∧ s2.draw = s.draw) ∨
      (s2.draw = 1 ∧ (s.opcode = 0xE0 ∨ s.opcode &&& 0xF000 = 0xD000)) := fun e =>
    Or.inl ⟨congrArg Prod.fst e, congrArg Prod.snd e⟩
  by_cases h0 : s.opcode &&& 0xF000 = 0x0000
  · rw [exec_sys t s h0] at h
    by_cases hc : s.opcode = 0xE0
    · right
      refine ⟨?_, Or.inl hc⟩
      unfold sys at h
      rw [if_pos hc] at h
      have h := Except.ok.inj h; subst h
      rfl
    · exact key (sys_obs (fun m => (m.gfx, m.draw)) (fun _ _ _ => rfl) s s2 hc h)
  by_cases h2 : s.opcode &&& 0xF000 = 0x2000
  · rw [exec_call t s h2] at h
    exact key (call_obs (fun m => (m.gfx, m.draw)) (fun _ _ _ _ => rfl) s s2 h)
  by_cases hD : s.opcode &&& 0xF000 = 0xD000
  · rw [exec_drw t s hD] at h
    exact Or.inr ⟨drw_draw s s2 h, Or.inr hD⟩
  · exact key (exec_obs (fun m => (m.gfx, m.draw)) (fun _ _ _ _ _ _ _ => rfl) t s s2 h h0 h2 hD)

/-- C19: for every state and every cycle that yields a state: if some
framebuffer cell differs from its value before the cycle, the draw flag is 1
afterwards; a cycle whose word is neither CLS (00E0) nor in the DRW family
(Dxyn) leaves the whole framebuffer unchanged; and the draw flag after the
cycle is its old value or 1, so no instruction clears it. -/
theorem draw_covers (t : Nat) (s : Machine) (r : Machine × Bool)
    (h : fde_cycle t s = .ok r) :
    ((∃ i, r.1.gfx i ≠ s.gfx i) → r.1.draw = 1) ∧
    (word s ≠ 0x00E0 → word s &&& 0xF000 ≠ 0xD000 → r.1.gfx = s.gfx) ∧
    (r.1.draw = s.draw ∨ r.1.draw = 1) := by
  obtain ⟨-, s2, he, hr⟩ := fde_cycle_ok t s r h
  subst hr
  rw [tick_gfx, tick_draw]
  rcases exec_gfx t _ s2 he with ⟨hg, hd⟩ | ⟨hd, hop⟩
  · refine ⟨?_, fun _ _ => hg, Or.inl hd⟩
    rintro ⟨i, hi⟩
    exact absurd (congrFun hg i) hi
  · refine ⟨fun _ => hd, ?_, Or.inr hd⟩
    intro hc hD
    rcases hop with e | e
    · exact absurd e hc
    · exact absurd e hD

theorem draw_covers_witness :
    ((∃ i, (resultOf 0 sampleDrw).1.gfx i ≠ sampleDrw.gfx i) →
      (resultOf 0 sampleDrw).1.draw = 1) ∧
    (word sampleDrw ≠ 0x00E0 → word sampleDrw &&& 0xF000 ≠ 0xD000 →
      (resultOf 0 sampleDrw).1.gfx = sampleDrw.gfx) ∧
    ((resultOf 0 sampleDrw).1.draw = sampleDrw.draw ∨ (resultOf 0 sampleDrw).1.draw = 1) ∧
    sampleDrw.draw = 0 ∧ drawAfter 0 sampleDrw = some 1 ∧
    sampleDrawn.draw = 1 ∧ drawAfter 0 sampleDrawn = some 1 :=
  ⟨(draw_covers 0 sampleDrw (resultOf 0 sampleDrw) rfl).1,
   (draw_covers 0 sampleDrw (resultOf 0 sampleDrw) rfl).2.1,
   (draw_covers 0 sampleDrw (resultOf 0 sampleDrw) rfl).2.2,
   by decide, by decide, by decide, by decide⟩

/-! ## C20: single-bit pixels -/

theorem drwPixel_gfx01 (xd yd yline pix : Nat) (s s2 : Machine) (xline : Nat)
    (hs : ∀ i, i < 2048 → s.gfx i ≤ 1)
    (h : drwPixel xd yd yline pix s xline = .ok s2) : ∀ i, i < 2048 → s2.gfx i ≤ 1 := by
  unfold drwPixel at h
  dsimp only at h
  rcases ite_ok_or _ _ _ _ h with ⟨-, h⟩ | ⟨-, h⟩
  · rcases ite_ok_or _ _ _ _ h with ⟨hk, h⟩ | ⟨-, h⟩
    · have h := Except.ok.inj h; subst h
      have hk2 : xd + xline + (yd + yline) * 64 < 2048 := hk
      intro i hi
      have hcell : s.gfx (xd + xline + (yd + yline) * 64) ≤ 1 := hs _ hk2
      have hx : u8 (s.gfx (xd + xline + (yd + yline) * 64) ^^^ 1) ≤ 1 := by
        have h2 : s.gfx (xd + xline + (yd + yline) * 64) = 0 ∨
            s.gfx (xd + xline + (yd + yline) * 64) = 1 := by omega
        rcases h2 with e | e <;> rw [e] <;> decide
      by_cases h1 : s.gfx (xd + xline + (yd + yline) * 64) = 1
      · rw [if_pos h1]
        show store s.gfx _ (u8 (s.gfx _ ^^^ 1)) i ≤ 1
        unfold store
        by_cases hik : i = xd + xline + (yd + yline) * 64
        · rw [if_pos hik]; exact hx
        · rw [if_neg hik]; exact hs i hi
      · rw [if_neg h1]
        show store s.gfx _ (u8 (s.gfx _ ^^^ 1)) i ≤ 1
        unfold store
        by_cases hik : i = xd + xline + (yd + yline) * 64
        · rw [if_pos hik]; exact hx
        · rw [if_neg hik]; exact hs i hi
    · cases h
  · have h := Except.ok.inj h; subst h; exact hs

theorem drw_gfx01 (s s2 : Machine) (hs : ∀ i, i < 2048 → s.gfx i ≤ 1)
    (h : drw s = .ok s2) : ∀ i, i < 2048 → s2.gfx i ≤ 1 := by
  unfold drw at h
  dsimp only at h
  cases hf : (List.range (n s.opcode)).foldlM
      (drwRow (s.V (x s.opcode)) (s.V (y s.opcode))) (setV s F 0) with
  | error e => rw [hf] at h; cases h
  | ok s3 =>
    rw [hf] at h
    have h := Except.ok.inj h; subst h
    refine foldlM_inv (fun a => ∀ i, i < 2048 → a.gfx i ≤ 1) _ ?_ _ (setV s F 0) s3 hs hf
    intro a row a2 ha hrow
    unfold drwRow at hrow
    rcases ite_ok_or _ _ _ _ hrow with ⟨-, hrow⟩ | ⟨-, hrow⟩
    · exact foldlM_inv (fun b => ∀ i, i < 2048 → b.gfx i ≤ 1) _
        (fun b col b2 hb hp => drwPixel_gfx01 _ _ _ _ b b2 col hb hp) _ a a2 ha hrow
    · cases hrow

/-- A cycle that yields a state keeps every framebuffer cell in `{0, 1}`. -/
theorem gfx01_step (t : Nat) (s : Machine) (r : Machine × Bool)
    (h01 : ∀ i, i < 2048 → s.gfx i ≤ 1) (h : fde_cycle t s = .ok r) :
    ∀ i, i < 2048 → r.1.gfx i ≤ 1 := by
  obtain ⟨-, s2, he, hr⟩ := fde_cycle_ok t s r h
  subst hr
  rw [tick_gfx]
  by_cases h0 : word s &&& 0xF000 = 0x0000
  · rw [exec_sys t _ h0] at he
    by_cases hc : word s = 0xE0
    · unfold sys at he
      rw [if_pos hc] at he
      have he := Except.ok.inj he; subst he
      intro i hi
      show (if i < 2048 then 0 else s.gfx i) ≤ 1
      rw [if_pos hi]
      exact Nat.zero_le _
    · rw [sys_obs Machine.gfx (fun _ _ _ => rfl) _ s2 hc he]
      exact h01
  by_cases hD : word s &&& 0xF000 = 0xD000
  · rw [exec_drw t _ hD] at he
    exact drw_gfx01 { s with opcode := word s, nnn := word s &&& 0xFFF, pc := u16 (s.pc + 2) }
      s2 h01 he
  · rcases exec_gfx t _ s2 he with ⟨hg, -⟩ | ⟨-, e | e⟩
    · rw [hg]; exact h01
    · have e2 : word s = 0xE0 := e
      rw [e2] at h0
      exact absurd (by decide) h0
    · exact absurd e hD

/-- Every reachable state has all framebuffer cells in `{0, 1}`. -/
theorem gfx01_reachable (s : Machine) (h : Reachable s) : ∀ i, i < 2048 → s.gfx i ≤ 1 := by
  induction h with
  | start s hs =>
    obtain ⟨s0, rom, hl⟩ := hs
    unfold load_rom at hl
    dsimp only at hl
    rcases ite_ok_or _ _ _ _ hl with ⟨-, hl⟩ | ⟨-, hl⟩
    · cases hl
    · rcases ite_ok_or _ _ _ _ hl with ⟨-, hl⟩ | ⟨-, hl⟩
      · have hl := Except.ok.inj hl; subst hl
        intro i hi
        show (if i < GFX_SIZE then 0 else s0.gfx i) ≤ 1
        rw [if_pos (show i < GFX_SIZE from hi)]
        exact Nat.zero_le _
      · cases hl
  | cycle t s r _ hc ih => exact gfx01_step t s r ih hc
  | input s k _ ih => exact ih

/-- C20: if every framebuffer cell holds 0 or 1 before a cycle, every cell
holds 0 or 1 after a cycle that yields a state; `init_regs` leaves every cell
0; hence in every reachable state each cell holds 0 or 1, and a cell is 1
exactly when it is non-zero. -/
theorem single_bit_pixels (t : Nat) (s : Machine) (r : Machine × Bool)
    (h01 : ∀ i, i < 2048 → s.gfx i ≤ 1) (h : fde_cycle t s = .ok r) :
    (∀ i, i < 2048 → r.1.gfx i ≤ 1) ∧
    (∀ s0 i, i < 2048 → (init_regs s0).gfx i = 0) ∧
    (∀ s1, Reachable s1 → ∀ i, i < 2048 →
      s1.gfx i ≤ 1 ∧ (s1.gfx i = 1 ↔ s1.gfx i ≠ 0)) := by
  refine ⟨gfx01_step t s r h01 h, ?_, ?_⟩
  · intro s0 i hi
    show (if i < GFX_SIZE then 0 else s0.gfx i) = 0
    rw [if_pos (show i < GFX_SIZE from hi)]
  · intro s1 hr i hi
    have hle := gfx01_reachable s1 hr i hi
    exact ⟨hle, by omega⟩

theorem sampleDrw_reachable : Reachable sampleDrw :=
  Reachable.start _ ⟨boot, [0xD0, 0x05], rfl⟩

theorem single_bit_pixels_witness :
    ((∀ i, i < 2048 → (resultOf 0 sampleDrw).1.gfx i ≤ 1) ∧
     (∀ s0 i, i < 2048 → (init_regs s0).gfx i = 0) ∧
     (∀ s1, Reachable s1 → ∀ i, i < 2048 →
       s1.gfx i ≤ 1 ∧ (s1.gfx i = 1 ↔ s1.gfx i ≠ 0))) ∧
    Reachable sampleDrw ∧ Reachable (resultOf 0 sampleDrw).1 :=
  ⟨single_bit_pixels 0 sampleDrw (resultOf 0 sampleDrw)
     (fun i _ => by rw [sampleDrw_gfx i]; decide) rfl,
   sampleDrw_reachable,
   Reachable.cycle 0 sampleDrw (resultOf 0 sampleDrw) sampleDrw_reachable rfl⟩

end Chip8
